import Mathlib

set_option maxRecDepth 100000

/-!
Shallow embedding of `scripts/build_publications.py` and
`scripts/build_news_json.py` from the `angerslab.org` repository.

Python strings are modelled as `List Char`; Python's `str.partition`,
`str.find`-style first-occurrence search, `re.sub`, `str.strip`,
`str.rstrip`, chunking and the record pipeline are translated directly
from the source.  Network I/O (`urlopen`) is modelled by an explicit
transport oracle together with an event trace; the filesystem target of
`inject_into_file` is modelled as an `Option (List Char)` (the file's
content, or `none` when the file does not exist).
-/

namespace PyStr

/-- Convert a Lean string literal to the `List Char` model of Python strings. -/
def strL (s : String) : List Char := s.toList

/-- Index of the first suffix of `s` satisfying `p` (scanning left to right),
mirroring the leftmost-match discipline of Python's `str.find` / `re`. -/
def findFirstIdx (p : List Char → Bool) : List Char → Option Nat
  | [] => if p [] then some 0 else none
  | s@(_ :: t) => if p s then some 0 else (findFirstIdx p t).map (· + 1)

/-- `u` occurs in `s` (as a contiguous substring) at some position. -/
def Occurs (s u : List Char) : Prop := ∃ i, u <+: s.drop i

/-- First occurrence of the substring `sep` in `s`, as Python's `str.find`. -/
def findSub (s sep : List Char) : Option Nat :=
  findFirstIdx (fun t => sep.isPrefixOf t) s

/-- Python's `sep in s` membership test. -/
def containsSub (s sep : List Char) : Bool := (findSub s sep).isSome

/-- Python's `s.partition(sep)`: split at the first occurrence of `sep`,
returning `(s, '', '')` when `sep` does not occur. -/
def partition3 (s sep : List Char) : List Char × List Char × List Char :=
  match findSub s sep with
  | some i => (s.take i, sep, s.drop (i + sep.length))
  | none => (s, [], [])

theorem isPre_iff {u v : List Char} : u.isPrefixOf v = true ↔ u <+: v :=
  List.isPrefixOf_iff_prefix

theorem pre_iff_take {u v : List Char} : u <+: v ↔ u = v.take u.length :=
  List.prefix_iff_eq_take

theorem pre_of_append_le {u a b : List Char} (h : u <+: a ++ b)
    (hl : u.length ≤ a.length) : u <+: a := by
  rw [pre_iff_take] at h ⊢
  rwa [List.take_append_of_le_length hl] at h

theorem pre_extend {u a : List Char} (b : List Char) (h : u <+: a) :
    u <+: a ++ b :=
  h.trans (List.prefix_append a b)

theorem pre_drop {u v : List Char} (d : Nat) (h : u <+: v) :
    u.drop d <+: v.drop d := by
  rcases h with ⟨w, rfl⟩
  rcases Nat.le_total d u.length with hd | hd
  · exact ⟨w, by rw [List.drop_append_of_le_length hd]⟩
  · rw [List.drop_eq_nil_of_le hd]
    exact List.nil_prefix

theorem findFirstIdx_some_spec {p : List Char → Bool} :
    ∀ {s : List Char} {i : Nat}, findFirstIdx p s = some i →
      p (s.drop i) = true ∧ ∀ j, j < i → p (s.drop j) = false := by
  intro s
  induction s with
  | nil =>
    intro i h
    simp only [findFirstIdx] at h
    by_cases hp : p [] = true
    · have hi0 : i = 0 := by simp [hp] at h; omega
      subst hi0
      exact ⟨hp, fun j hj => absurd hj (by omega)⟩
    · simp [hp] at h
  | cons c t ih =>
    intro i h
    simp only [findFirstIdx] at h
    by_cases hp : p (c :: t) = true
    · have hi0 : i = 0 := by simp [hp] at h; omega
      subst hi0
      exact ⟨hp, fun j hj => absurd hj (by omega)⟩
    · rw [if_neg (by simpa using hp)] at h
      rcases Option.map_eq_some'.mp h with ⟨k, hk, hki⟩
      subst hki
      rcases ih hk with ⟨h1, h2⟩
      refine ⟨by simpa using h1, ?_⟩
      intro j hj
      cases j with
      | zero =>
        simp only [List.drop_zero]
        exact Bool.not_eq_true _ ▸ by simpa using hp
      | succ j' =>
        have := h2 j' (by omega)
        simpa using this

theorem findFirstIdx_eq_some {p : List Char → Bool} :
    ∀ {s : List Char} {i : Nat}, i ≤ s.length → p (s.drop i) = true →
      (∀ j, j < i → p (s.drop j) = false) → findFirstIdx p s = some i := by
  intro s
  induction s with
  | nil =>
    intro i hi hp _
    have hi0 : i = 0 := by simpa using hi
    subst hi0
    simpa [findFirstIdx] using hp
  | cons c t ih =>
    intro i hi hp hmin
    cases i with
    | zero => simpa [findFirstIdx] using hp
    | succ i' =>
      have h0 : p (c :: t) = false := by simpa using hmin 0 (by omega)
      have ht : findFirstIdx p t = some i' := by
        refine ih (by simpa using hi) (by simpa using hp) ?_
        intro j hj
        have := hmin (j + 1) (by omega)
        simpa using this
      simp [findFirstIdx, h0, ht]

theorem findFirstIdx_none_of {p : List Char → Bool} :
    ∀ {s : List Char}, (∀ j, p (s.drop j) = false) → findFirstIdx p s = none := by
  intro s
  induction s with
  | nil =>
    intro h
    simpa [findFirstIdx] using h 0
  | cons c t ih =>
    intro h
    have h0 : p (c :: t) = false := by simpa using h 0
    have ht : findFirstIdx p t = none := ih (fun j => by simpa using h (j + 1))
    simp [findFirstIdx, h0, ht]

theorem findSub_some_spec {s sep : List Char} {i : Nat}
    (h : findSub s sep = some i) :
    sep <+: s.drop i ∧ ∀ j, j < i → ¬ sep <+: s.drop j := by
  rcases findFirstIdx_some_spec h with ⟨h1, h2⟩
  refine ⟨isPre_iff.mp h1, ?_⟩
  intro j hj hc
  have := h2 j hj
  rw [← isPre_iff] at hc
  simp [hc] at this

theorem findSub_eq_some {s sep : List Char} {i : Nat} (hi : i ≤ s.length)
    (hp : sep <+: s.drop i) (hmin : ∀ j, j < i → ¬ sep <+: s.drop j) :
    findSub s sep = some i := by
  refine findFirstIdx_eq_some hi (isPre_iff.mpr hp) ?_
  intro j hj
  have := hmin j hj
  by_contra hbad
  rw [Bool.not_eq_false, isPre_iff] at hbad
  exact this hbad

theorem not_occurs_iff {s u : List Char} :
    ¬ Occurs s u ↔ ∀ i, ¬ u <+: s.drop i := by
  constructor
  · intro h i hi
    exact h ⟨i, hi⟩
  · rintro h ⟨i, hi⟩
    exact h i hi

theorem pre_drop_decomp {s u : List Char} {i : Nat} (h : u <+: s.drop i) :
    s.drop i = u ++ s.drop (i + u.length) := by
  rw [pre_iff_take] at h
  conv_lhs => rw [← List.take_append_drop u.length (s.drop i)]
  rw [← h, List.drop_drop]

/-- No occurrence of `u` inside a window of `s` ending strictly before the
unique occurrence position `jj`. -/
theorem not_occurs_seg {s u : List Char} {o L jj : Nat} (hu : u ≠ [])
    (huniq : ∀ k, u <+: s.drop k → k = jj) (hL : o + L ≤ jj) :
    ¬ Occurs ((s.drop o).take L) u := by
  rintro ⟨k, hk⟩
  rw [List.drop_take, List.drop_drop] at hk
  rcases (List.prefix_take_iff).mp hk with ⟨hk1, hk2⟩
  have hkj := huniq (o + k) hk1
  have hul : 0 < u.length := by
    cases u with
    | nil => exact absurd rfl hu
    | cons a t => simp
  omega

theorem not_occurs_take {s u : List Char} {L jj : Nat} (hu : u ≠ [])
    (huniq : ∀ k, u <+: s.drop k → k = jj) (hL : L ≤ jj) :
    ¬ Occurs (s.take L) u := by
  have h := not_occurs_seg (o := 0) hu huniq (by omega) (L := L)
  simpa using h

/-- No occurrence of `u` in the part of `s` after its unique occurrence. -/
theorem not_occurs_late {s u : List Char} {o jj : Nat}
    (huniq : ∀ k, u <+: s.drop k → k = jj) (ho : jj < o) :
    ¬ Occurs (s.drop o) u := by
  rintro ⟨k, hk⟩
  rw [List.drop_drop] at hk
  have := huniq (o + k) hk
  omega

/-- Bounded check sufficient for non-occurrence hypotheses. -/
theorem not_occurs_of_bounded {s u : List Char} (hu : u ≠ [])
    (hb : ((List.range (s.length + 1)).all
      (fun k => !(u.isPrefixOf (s.drop k)))) = true) :
    ¬ Occurs s u := by
  rintro ⟨k, hk⟩
  rcases Nat.lt_or_ge k (s.length + 1) with hks | hks
  · have hall := (List.all_eq_true.mp hb) k (List.mem_range.mpr hks)
    rw [← isPre_iff] at hk
    simp [hk] at hall
  · rw [List.drop_eq_nil_of_le (by omega)] at hk
    exact hu (List.prefix_nil.mp hk)

/-- Bounded check sufficient for the uniqueness hypotheses. -/
theorem unique_of_bounded {s u : List Char} {i : Nat} (hu : u ≠ [])
    (hb : ((List.range (s.length + 1)).all
      (fun k => !(u.isPrefixOf (s.drop k)) || (k == i))) = true) :
    ∀ k, u <+: s.drop k → k = i := by
  intro k hk
  rcases Nat.lt_or_ge k (s.length + 1) with hks | hks
  · have hall := (List.all_eq_true.mp hb) k (List.mem_range.mpr hks)
    rw [← isPre_iff] at hk
    simp only [hk, Bool.not_true, Bool.false_or] at hall
    simpa using hall
  · exfalso
    rw [List.drop_eq_nil_of_le (by omega)] at hk
    exact hu (List.prefix_nil.mp hk)

/-- A substring with no proper self-overlap: no nonempty proper suffix of `u`
is a prefix of `u`. The two marker comments have this property. -/
def NoOverlap (u : List Char) : Prop :=
  ∀ j, j < u.length → 0 < j → ¬ (u.drop j <+: u)

instance (u : List Char) : Decidable (NoOverlap u) :=
  Nat.decidableBallLT _ _

theorem occurs_mono_right {a b u : List Char} (h : Occurs a u) :
    Occurs (a ++ b) u := by
  rcases h with ⟨i, hi⟩
  rcases Nat.le_total i a.length with hd | hd
  · refine ⟨i, ?_⟩
    rw [List.drop_append_of_le_length hd]
    exact pre_extend _ hi
  · rw [List.drop_eq_nil_of_le hd] at hi
    have hu : u = [] := List.prefix_nil.mp hi
    exact ⟨0, by simp [hu]⟩

theorem occurs_shift {a b u : List Char} (h : Occurs b u) :
    Occurs (a ++ b) u := by
  rcases h with ⟨i, hi⟩
  refine ⟨a.length + i, ?_⟩
  rw [List.drop_append]
  exact hi

/-- In `pre ++ u ++ post` with `u` overlap-free and not occurring in
`pre`, there is no occurrence of `u` strictly before position `pre.length`. -/
theorem no_early_occurrence {pre post u : List Char}
    (hno : NoOverlap u) (hpre : ¬ Occurs pre u) :
    ∀ k, k < pre.length → ¬ u <+: (pre ++ (u ++ post)).drop k := by
  intro k hk hbad
  rw [List.drop_append_of_le_length (by omega)] at hbad
  rcases Nat.lt_or_ge (pre.length - k) u.length with hlt | hge
  · -- straddling occurrence: a proper suffix of `u` would be a prefix of `u`
    have hdlen : (pre.drop k).length = pre.length - k := by simp
    have hv : (pre.drop k ++ (u ++ post)).drop (pre.length - k) = u ++ post := by
      rw [List.drop_append_eq_append_drop, List.drop_eq_nil_of_le (le_of_eq hdlen),
        hdlen]
      simp
    have hdrop := pre_drop (pre.length - k) hbad
    rw [hv] at hdrop
    have h2 : u.drop (pre.length - k) <+: u := by
      refine pre_of_append_le hdrop ?_
      simp only [List.length_drop]
      omega
    exact hno (pre.length - k) hlt (by omega) h2
  · have hlen : u.length ≤ (pre.drop k).length := by
      simp only [List.length_drop]
      omega
    exact hpre ⟨k, pre_of_append_le hbad hlen⟩

/-- Characterization of `partition3` on a string whose separator occurrence
at `pre.length` is the first one. -/
theorem partition3_eq {pre post u : List Char}
    (hno : NoOverlap u) (hpre : ¬ Occurs pre u) :
    partition3 (pre ++ (u ++ post)) u = (pre, u, post) := by
  have hf : findSub (pre ++ (u ++ post)) u = some pre.length := by
    refine findSub_eq_some ?_ ?_ (no_early_occurrence hno hpre)
    · simp
    · rw [show pre.length = pre.length + 0 by omega, List.drop_append]
      exact ⟨post, by simp⟩
  have h1 : (pre ++ (u ++ post)).take pre.length = pre := by
    rw [show pre.length = pre.length + 0 by omega, List.take_append]
    simp
  have h2 : (pre ++ (u ++ post)).drop (pre.length + u.length) = post := by
    rw [List.drop_append, show u.length = u.length + 0 by omega, List.drop_append]
    simp
  simp only [partition3, hf, h1, h2]

theorem findFirstIdx_none_spec {p : List Char → Bool} :
    ∀ {s : List Char}, findFirstIdx p s = none → ∀ j, p (s.drop j) = false := by
  intro s
  induction s with
  | nil =>
    intro h j
    simp only [findFirstIdx] at h
    by_cases hp : p [] = true
    · simp [hp] at h
    · simpa using by simpa using hp
  | cons c t ih =>
    intro h j
    simp only [findFirstIdx] at h
    by_cases hp : p (c :: t) = true
    · simp [hp] at h
    · rw [if_neg (by simpa using hp)] at h
      have ht : findFirstIdx p t = none := by
        rcases hfi : findFirstIdx p t with _ | k
        · rfl
        · simp [hfi] at h
      cases j with
      | zero =>
        simp only [List.drop_zero]
        simpa using hp
      | succ j' =>
        simpa using ih ht j'

theorem containsSub_of_occurs {s u : List Char} (h : Occurs s u) :
    containsSub s u = true := by
  rcases h with ⟨i, hi⟩
  unfold containsSub
  rcases hfs : findSub s u with _ | j
  · exfalso
    have := findFirstIdx_none_spec hfs i
    rw [← isPre_iff] at hi
    simp [hi] at this
  · simp

end PyStr

namespace Pubs

open PyStr

/-- `"<!-- PUBLIST:START -->"`, the start marker used by `inject_into_file`. -/
def startMarker : List Char := strL "<!-- PUBLIST:START -->"

/-- `"<!-- PUBLIST:END -->"`, the end marker used by `inject_into_file`. -/
def endMarker : List Char := strL "<!-- PUBLIST:END -->"

/-- The literal group `(Updated automatically from PubMed: )` of the
timestamp regex in `inject_into_file`. -/
def pillPre : List Char := strL "Updated automatically from PubMed: "

/-- The regex `(Updated automatically from PubMed: )[^<]+` matches at the head
of `t`: the literal prefix followed by at least one character other than `<`. -/
def pillMatch (t : List Char) : Bool :=
  pillPre.isPrefixOf t &&
    (match (t.drop pillPre.length).head? with
     | some c => c != '<'
     | none => false)

/-- Position of the leftmost regex match in `s`. -/
def findPill (s : List Char) : Option Nat := findFirstIdx pillMatch s

/-- `re.sub(r"(Updated automatically from PubMed: )[^<]+", r"\1" + now, s)`:
replace every match (leftmost first, continuing after each replacement) by
the literal group followed by `now`. -/
def refresh (now : List Char) (s : List Char) : List Char :=
  match h : findPill s with
  | none => s
  | some i =>
    s.take i ++ pillPre ++ now ++
      refresh now (s.drop (i + pillPre.length +
        ((s.drop (i + pillPre.length)).takeWhile (fun c => c != '<')).length))
termination_by s.length
decreasing_by
  have h1 := (findFirstIdx_some_spec h).1
  simp only [pillMatch, Bool.and_eq_true] at h1
  have h2 : pillPre <+: s.drop i := isPre_iff.mp h1.1
  have h3 := h2.length_le
  have hp : pillPre.length = 35 := by decide
  simp only [List.length_drop] at h3 ⊢
  omega

theorem refresh_of_none (now : List Char) {s : List Char}
    (h : findPill s = none) : refresh now s = s := by
  rw [refresh, h]

theorem refresh_of_some (now : List Char) {s : List Char} {i : Nat}
    (h : findPill s = some i) :
    refresh now s = s.take i ++ pillPre ++ now ++
      refresh now (s.drop (i + pillPre.length +
        ((s.drop (i + pillPre.length)).takeWhile (fun c => c != '<')).length)) := by
  rw [refresh, h]

theorem pillPre_len : pillPre.length = 35 := by decide

theorem pillPre_ne_nil : pillPre ≠ [] := by decide

theorem pillPre_no_lt : '<' ∉ pillPre := by decide

theorem pre_head {u v : List Char} (h : u <+: v) {c : Char}
    (hc : u.head? = some c) : v.head? = some c := by
  rcases h with ⟨w, rfl⟩
  cases u with
  | nil => simp at hc
  | cons a t => simpa using hc

theorem pillMatch_iff {t : List Char} :
    pillMatch t = true ↔
      (pillPre <+: t ∧ ∃ c, (t.drop pillPre.length).head? = some c ∧ c ≠ '<') := by
  unfold pillMatch
  rcases hh : (t.drop pillPre.length).head? with _ | c
  · simp [hh, isPre_iff]
  · simp [hh, isPre_iff, Bool.and_eq_true]

theorem pillMatch_eq_of_take36 {t t' : List Char} (h : t.take 36 = t'.take 36) :
    pillMatch t = pillMatch t' := by
  rw [← Bool.coe_iff_coe, pillMatch_iff, pillMatch_iff]
  have hpre : ∀ (r : List Char), pillPre <+: r ↔ pillPre <+: r.take 36 := by
    intro r
    rw [List.prefix_take_iff]
    have : pillPre.length ≤ 36 := by decide
    tauto
  have hhd : ∀ (r : List Char),
      (r.drop pillPre.length).head? = (r.take 36)[pillPre.length]? := by
    intro r
    rw [List.head?_drop, List.getElem?_take, if_pos (by decide)]
  rw [hpre t, hpre t', hhd t, hhd t', h]

theorem findPill_some_spec {s : List Char} {i : Nat} (h : findPill s = some i) :
    pillMatch (s.drop i) = true ∧ ∀ j, j < i → pillMatch (s.drop j) = false :=
  findFirstIdx_some_spec h

theorem findPill_bounds {s : List Char} {i : Nat} (h : findPill s = some i) :
    i + pillPre.length ≤ s.length := by
  have h1 := (findPill_some_spec h).1
  rw [pillMatch_iff] at h1
  have h2 := h1.1.length_le
  have hp : pillPre.length = 35 := pillPre_len
  simp only [List.length_drop] at h2
  omega

theorem drop_pill_decomp {s : List Char} {i : Nat} (h : findPill s = some i) :
    s.drop i = pillPre ++ s.drop (i + pillPre.length) := by
  have h1 := (findPill_some_spec h).1
  rw [pillMatch_iff] at h1
  have h2 := h1.1
  rw [pre_iff_take] at h2
  conv_lhs => rw [← List.take_append_drop pillPre.length (s.drop i)]
  rw [← h2, List.drop_drop]

theorem takeWhile_head_fail {p : Char → Bool} :
    ∀ {l : List Char} {c : Char},
      (l.drop (l.takeWhile p).length).head? = some c → p c = false := by
  intro l
  induction l with
  | nil => intro c h; simp at h
  | cons a t ih =>
    intro c h
    by_cases hp : p a = true
    · exact ih (by simpa [List.takeWhile_cons, hp] using h)
    · simp only [List.takeWhile_cons] at h
      rw [if_neg (by simpa using hp)] at h
      simp at h
      rw [← h]
      simpa using hp

theorem takeWhile_nil_of_head {p : Char → Bool} {l : List Char} {c : Char}
    (h : l.head? = some c) (hp : p c = false) : l.takeWhile p = [] := by
  rcases List.head?_eq_some_iff.mp h with ⟨ys, rfl⟩
  simp [List.takeWhile_cons, hp]

theorem takeWhile_all_append {p : Char → Bool} {a b : List Char}
    (ha : ∀ c ∈ a, p c = true) (hb : b.takeWhile p = []) :
    (a ++ b).takeWhile p = a := by
  rw [List.takeWhile_append, if_pos (by rw [List.takeWhile_eq_self_iff.mpr ha])]
  rw [hb, List.append_nil]

theorem findPill_nil : findPill [] = none := by decide

theorem refresh_nil (n : List Char) : refresh n [] = [] :=
  refresh_of_none n findPill_nil

theorem refresh_head_lt {n : List Char} {s : List Char}
    (h : s.head? = some '<') : (refresh n s).head? = some '<' := by
  rcases hf : findPill s with _ | i
  · rw [refresh_of_none _ hf]; exact h
  · rw [refresh_of_some _ hf]
    cases i with
    | zero =>
      exfalso
      have h1 := (findPill_some_spec hf).1
      rw [pillMatch_iff] at h1
      have h2 := pre_head h1.1 (show pillPre.head? = some 'U' by decide)
      simp only [List.drop_zero] at h2
      rw [h] at h2
      exact absurd h2 (by decide)
    | succ i' =>
      simp [List.head?_append, List.head?_take, h]

theorem pre_left_of_append {w y P' : List Char} (h : P' <+: w ++ y)
    (hl : w.length ≤ P'.length) : w <+: P' := by
  rw [pre_iff_take] at h ⊢
  rw [h, List.take_take, Nat.min_eq_left hl, List.take_append_of_le_length (le_refl _)]
  simp

theorem pillMatch_append_false {w z : List Char} (hz : z.head? = some '<')
    (hw : pillMatch w = false) : pillMatch (w ++ z) = false := by
  by_contra hbad
  rw [Bool.not_eq_false, pillMatch_iff] at hbad
  rcases hbad with ⟨h1, c, hc, hcne⟩
  rcases Nat.lt_or_ge w.length pillPre.length with hlen | hlen
  · -- `pillPre` would have to straddle into `z`, but `z` starts with `<`
    have hw2 : w <+: pillPre := pre_left_of_append h1 (le_of_lt hlen)
    have h2 : pillPre.drop w.length <+: z := by
      have := pre_drop w.length h1
      rwa [show w.length = w.length + 0 by omega, List.drop_append,
        List.drop_zero] at this
    have h3 : pillPre.length - w.length ≠ 0 := by omega
    rcases hh : (pillPre.drop w.length).head? with _ | c0
    · rw [List.head?_eq_none_iff] at hh
      have := congrArg List.length hh
      simp at this
      omega
    · have h4 := pre_head h2 hh
      rw [hz] at h4
      have h5 : c0 = '<' := by simpa using h4.symm
      have h6 : c0 ∈ pillPre := by
        rw [List.head?_drop] at hh
        exact List.getElem?_mem hh
      rw [h5] at h6
      exact pillPre_no_lt h6
  · have hP : pillPre <+: w := pre_of_append_le h1 hlen
    have hdz : (w ++ z).drop pillPre.length = w.drop pillPre.length ++ z :=
      List.drop_append_of_le_length hlen
    rw [hdz, List.head?_append] at hc
    rcases hh : (w.drop pillPre.length).head? with _ | c1
    · rw [hh] at hc
      simp at hc
      rw [hz] at hc
      have : c = '<' := by simpa using hc.symm
      exact hcne this
    · -- `pillMatch w = false` forces the character after the prefix to be `<`
      have hcw : c1 = c := by
        rw [hh] at hc
        simpa using hc
      have hwneg : ¬ (pillMatch w = true) := by simp [hw]
      rw [pillMatch_iff] at hwneg
      push_neg at hwneg
      have h7 := hwneg hP c1 hh
      apply hcne
      rw [← hcw]
      exact h7

theorem pillMatch_append_true {w z : List Char} (hw : pillMatch w = true) :
    pillMatch (w ++ z) = true := by
  rw [pillMatch_iff] at hw ⊢
  rcases hw with ⟨h1, c, hc, hcne⟩
  have hlen : pillPre.length ≤ w.length := h1.length_le
  refine ⟨pre_extend z h1, c, ?_, hcne⟩
  rw [List.drop_append_of_le_length hlen, List.head?_append, hc]
  rfl

theorem findPill_append_of_none_left {x z : List Char}
    (hfalse : ∀ j, j < x.length → pillMatch ((x ++ z).drop j) = false) :
    findPill (x ++ z) = (findPill z).map (x.length + ·) := by
  rcases hz : findPill z with _ | k
  · rw [Option.map_none']
    apply findFirstIdx_none_of
    intro j
    rcases Nat.lt_or_ge j x.length with hj | hj
    · exact hfalse j hj
    · rw [List.drop_append_eq_append_drop, List.drop_eq_nil_of_le hj,
        List.nil_append]
      exact findFirstIdx_none_spec hz (j - x.length)
  · rw [Option.map_some']
    have hk := findPill_bounds hz
    apply findFirstIdx_eq_some
    · simp
      omega
    · rw [List.drop_append]
      exact (findPill_some_spec hz).1
    · intro j hj
      rcases Nat.lt_or_ge j x.length with hjx | hjx
      · exact hfalse j hjx
      · rw [List.drop_append_eq_append_drop, List.drop_eq_nil_of_le hjx,
          List.nil_append]
        exact (findPill_some_spec hz).2 (j - x.length) (by omega)

theorem refresh_append_of_none_left {x z : List Char}
    (hfalse : ∀ j, j < x.length → pillMatch ((x ++ z).drop j) = false)
    (n : List Char) : refresh n (x ++ z) = x ++ refresh n z := by
  rcases hz : findPill z with _ | k
  · have hxz : findPill (x ++ z) = none := by
      rw [findPill_append_of_none_left hfalse, hz, Option.map_none']
    rw [refresh_of_none _ hxz, refresh_of_none _ hz]
  · have hxz : findPill (x ++ z) = some (x.length + k) := by
      rw [findPill_append_of_none_left hfalse, hz, Option.map_some']
    rw [refresh_of_some _ hxz, refresh_of_some _ hz]
    have e1 : (x ++ z).take (x.length + k) = x ++ z.take k := List.take_append k
    have e2 : x.length + k + pillPre.length = x.length + (k + pillPre.length) := by
      omega
    have e3 : (x ++ z).drop (x.length + (k + pillPre.length)) =
        z.drop (k + pillPre.length) := List.drop_append _
    have e4 : ∀ r : Nat, x.length + (k + pillPre.length) + r =
        x.length + (k + pillPre.length + r) := by
      intro r; omega
    rw [e1, e2, e3, e4, List.drop_append]
    simp [List.append_assoc]

/-- A replacement never crosses a `<` boundary: `re.sub` distributes over an
append whose right part starts with `<`. -/
theorem refresh_append_lt (n : List Char) {z : List Char}
    (hz : z.head? = some '<') :
    ∀ x : List Char, refresh n (x ++ z) = refresh n x ++ refresh n z := by
  have main : ∀ N, ∀ x : List Char, x.length ≤ N →
      refresh n (x ++ z) = refresh n x ++ refresh n z := by
    intro N
    induction N with
    | zero =>
      intro x hx
      have hx0 : x = [] := by
        cases x with
        | nil => rfl
        | cons a t => simp at hx
      subst hx0
      simp [refresh_nil]
    | succ N ih =>
      intro x hx
      rcases hfx : findPill x with _ | i
      · have hfalse : ∀ j, j < x.length → pillMatch ((x ++ z).drop j) = false := by
          intro j hj
          rw [List.drop_append_of_le_length (le_of_lt hj)]
          exact pillMatch_append_false hz (findFirstIdx_none_spec hfx j)
        rw [refresh_append_of_none_left hfalse, refresh_of_none _ hfx]
      · have hbd := findPill_bounds hfx
        have hspec := findPill_some_spec hfx
        have hfxz : findPill (x ++ z) = some i := by
          apply findFirstIdx_eq_some
          · simp
            omega
          · rw [List.drop_append_of_le_length (by omega)]
            exact pillMatch_append_true hspec.1
          · intro j hj
            rw [List.drop_append_of_le_length (by omega)]
            exact pillMatch_append_false hz (hspec.2 j hj)
        rw [refresh_of_some _ hfxz, refresh_of_some _ hfx]
        have hzt : z.takeWhile (fun c => c != '<') = [] :=
          takeWhile_nil_of_head hz (by decide)
        have hdz : (x ++ z).drop (i + pillPre.length) =
            x.drop (i + pillPre.length) ++ z :=
          List.drop_append_of_le_length (by omega)
        have hrl : (((x ++ z).drop (i + pillPre.length)).takeWhile
              (fun c => c != '<')).length =
            ((x.drop (i + pillPre.length)).takeWhile (fun c => c != '<')).length := by
          rw [hdz, List.takeWhile_append, hzt]
          by_cases hcond :
              ((x.drop (i + pillPre.length)).takeWhile (fun c => c != '<')).length =
                (x.drop (i + pillPre.length)).length
          · rw [if_pos hcond, List.append_nil, hcond]
          · rw [if_neg hcond]
        rw [hrl]
        have hrlle : i + pillPre.length +
            ((x.drop (i + pillPre.length)).takeWhile (fun c => c != '<')).length ≤
              x.length := by
          have h9 := (List.takeWhile_prefix
            (l := x.drop (i + pillPre.length)) (fun c => c != '<')).length_le
          simp only [List.length_drop] at h9
          omega
        have e1 : (x ++ z).take i = x.take i :=
          List.take_append_of_le_length (by omega)
        have e5 : (x ++ z).drop (i + pillPre.length +
              ((x.drop (i + pillPre.length)).takeWhile (fun c => c != '<')).length) =
            x.drop (i + pillPre.length +
              ((x.drop (i + pillPre.length)).takeWhile (fun c => c != '<')).length) ++ z :=
          List.drop_append_of_le_length (by omega)
        have hp35 : pillPre.length = 35 := pillPre_len
        rw [e1, e5, ih _ (by simp only [List.length_drop]; omega)]
        simp [List.append_assoc]
  intro x
  exact main x.length x (le_refl _)

/-- `re.sub` walks over a short block that cannot start a match. -/
theorem refresh_append_short {u y : List Char} (hlen : u.length ≤ pillPre.length)
    (hno : ∀ k, k < u.length → ¬ (u.drop k <+: pillPre)) (n : List Char) :
    refresh n (u ++ y) = u ++ refresh n y := by
  apply refresh_append_of_none_left
  intro j hj
  rw [List.drop_append_of_le_length (le_of_lt hj)]
  by_contra hbad
  rw [Bool.not_eq_false, pillMatch_iff] at hbad
  have h1 : u.drop j <+: pillPre := by
    apply pre_left_of_append hbad.1
    simp only [List.length_drop]
    omega
  exact hno j hj h1

/-- `re.sub` cannot create a new occurrence of a short `<`-initial marker. -/
theorem refresh_no_occurs {u : List Char} (hu : u.head? = some '<')
    (hul : u.length ≤ pillPre.length)
    (hUP : ∀ d, 0 < d → d < u.length → ¬ (u.drop d <+: pillPre))
    {n : List Char} (hn : '<' ∉ n) :
    ∀ s : List Char, ¬ Occurs s u → ¬ Occurs (refresh n s) u := by
  have main : ∀ N, ∀ s : List Char, s.length ≤ N → ¬ Occurs s u →
      ¬ Occurs (refresh n s) u := by
    intro N
    induction N with
    | zero =>
      intro s hs hocc
      have hs0 : s = [] := by
        cases s with
        | nil => rfl
        | cons a t => simp at hs
      subst hs0
      rw [refresh_nil]
      exact hocc
    | succ N ih =>
      intro s hs hocc
      rcases hf : findPill s with _ | i
      · rw [refresh_of_none _ hf]
        exact hocc
      · rw [refresh_of_some _ hf]
        have hbd := findPill_bounds hf
        have hp35 : pillPre.length = 35 := pillPre_len
        have hrlle : i + pillPre.length +
            ((s.drop (i + pillPre.length)).takeWhile (fun c => c != '<')).length ≤
              s.length := by
          have h9 := (List.takeWhile_prefix
            (l := s.drop (i + pillPre.length)) (fun c => c != '<')).length_le
          simp only [List.length_drop] at h9
          omega
        set rl := ((s.drop (i + pillPre.length)).takeWhile (fun c => c != '<')).length
          with hrldef
        set R := refresh n (s.drop (i + pillPre.length + rl)) with hRdef
        have hnR : ¬ Occurs (s.drop (i + pillPre.length + rl)) u := by
          rintro ⟨w, hw⟩
          refine hocc ⟨i + pillPre.length + rl + w, ?_⟩
          rw [← List.drop_drop]
          exact hw
        have hRocc : ¬ Occurs R u := by
          rw [hRdef]
          exact ih _ (by simp only [List.length_drop]; omega) hnR
        set A := s.take i with hAdef
        have hAlen : A.length = i := by
          rw [hAdef, List.length_take]
          exact Nat.min_eq_left (by omega)
        rintro ⟨w, hw⟩
        have hw2 : u <+: (A ++ (pillPre ++ (n ++ R))).drop w := by
          simpa [List.append_assoc] using hw
        rcases Nat.lt_or_ge w A.length with hwa | hwa
        · rw [List.drop_append_of_le_length (le_of_lt hwa)] at hw2
          rcases Nat.lt_or_ge (A.length - w) u.length with hd | hd
          · -- straddling: a proper suffix of `u` is a prefix of `pillPre`
            have hdl : (A.drop w).length = A.length - w := by simp
            have hv : (A.drop w ++ (pillPre ++ (n ++ R))).drop (A.length - w) =
                pillPre ++ (n ++ R) := by
              rw [List.drop_append_eq_append_drop,
                List.drop_eq_nil_of_le (le_of_eq hdl), hdl]
              simp
            have h2 := pre_drop (A.length - w) hw2
            rw [hv] at h2
            have h3 : u.drop (A.length - w) <+: pillPre :=
              pre_of_append_le h2 (by simp only [List.length_drop]; omega)
            exact hUP (A.length - w) (by omega) hd h3
          · -- fully inside the copied block: an occurrence in `s`
            have h5 : u <+: A.drop w :=
              pre_of_append_le hw2 (by simp only [List.length_drop]; omega)
            have h6 : A.drop w = (s.drop w).take (i - w) := by
              rw [hAdef, List.drop_take]
            have h7 : u <+: s.drop w := by
              rw [h6] at h5
              exact ((List.prefix_take_iff).mp h5).1
            exact hocc ⟨w, h7⟩
        · have hv2 : (A ++ (pillPre ++ (n ++ R))).drop w =
              (pillPre ++ (n ++ R)).drop (w - A.length) := by
            rw [List.drop_append_eq_append_drop, List.drop_eq_nil_of_le hwa,
              List.nil_append]
          rw [hv2] at hw2
          rcases Nat.lt_or_ge (w - A.length) (pillPre.length + n.length) with hwb | hwb
          · -- occurrence would start inside `pillPre ++ n`, which has no `<`
            have hv3 : (pillPre ++ (n ++ R)).drop (w - A.length) =
                (pillPre ++ n).drop (w - A.length) ++ R := by
              rw [← List.append_assoc]
              exact List.drop_append_of_le_length (by simp; omega)
            rw [hv3] at hw2
            rcases hh : ((pillPre ++ n).drop (w - A.length)).head? with _ | c0
            · rw [List.head?_eq_none_iff] at hh
              have hlen0 := congrArg List.length hh
              simp at hlen0
              omega
            · have h8 := pre_head hw2 hu
              rw [List.head?_append, hh] at h8
              have h9 : c0 = '<' := by simpa using h8
              have h10 : c0 ∈ pillPre ++ n := by
                rw [List.head?_drop] at hh
                exact List.getElem?_mem hh
              rw [h9] at h10
              rcases List.mem_append.mp h10 with hmem | hmem
              · exact pillPre_no_lt hmem
              · exact hn hmem
          · -- occurrence inside the recursively rewritten tail
            have hv4 : (pillPre ++ (n ++ R)).drop (w - A.length) =
                R.drop (w - A.length - (pillPre.length + n.length)) := by
              rw [← List.append_assoc, List.drop_append_eq_append_drop,
                List.drop_eq_nil_of_le (by simp; omega), List.nil_append]
              congr 1
              simp
            rw [hv4] at hw2
            exact hRocc ⟨_, hw2⟩
  intro s
  exact main s.length s (le_refl _)

theorem take36_append_eq {C X Y : List Char} (hC : 36 - C.length ≤ pillPre.length) :
    (C ++ (pillPre ++ X)).take 36 = (C ++ (pillPre ++ Y)).take 36 := by
  have h : ∀ Z : List Char, (C ++ (pillPre ++ Z)).take 36 =
      C.take 36 ++ pillPre.take (36 - C.length) := by
    intro Z
    rw [List.take_append_eq_append_take]
    congr 1
    rw [List.take_append_of_le_length hC]
  rw [h X, h Y]

/-- Applying `re.sub` with timestamp `n2` to a document in which a match at
position `i` has already been replaced by `pillPre ++ n1` rewrites exactly that
replacement again. -/
theorem refresh_step {s : List Char} {i : Nat} (hf : findPill s = some i)
    {n1 R : List Char} (hne : n1 ≠ []) (hn1 : '<' ∉ n1)
    (hRt : R.takeWhile (fun c => c != '<') = [])
    (n2 : List Char) :
    refresh n2 (s.take i ++ pillPre ++ n1 ++ R) =
      s.take i ++ pillPre ++ n2 ++ refresh n2 R := by
  have hbd := findPill_bounds hf
  have hp35 : pillPre.length = 35 := pillPre_len
  have hspec := findPill_some_spec hf
  have hAlen : (s.take i).length = i := by
    rw [List.length_take]
    exact Nat.min_eq_left (by omega)
  have hMassoc : s.take i ++ pillPre ++ n1 ++ R =
      s.take i ++ (pillPre ++ (n1 ++ R)) := by
    simp [List.append_assoc]
  have hsplit : ∀ j, j ≤ i → s.drop j =
      (s.take i).drop j ++ (pillPre ++ s.drop (i + pillPre.length)) := by
    intro j hj
    conv_lhs => rw [← List.take_append_drop i s]
    rw [List.drop_append_of_le_length (by omega), drop_pill_decomp hf]
  have hMdrop : ∀ j, j ≤ i → (s.take i ++ (pillPre ++ (n1 ++ R))).drop j =
      (s.take i).drop j ++ (pillPre ++ (n1 ++ R)) := by
    intro j hj
    rw [List.drop_append_of_le_length (by omega)]
  have hA0 : (s.take i).drop i = [] :=
    List.drop_eq_nil_of_le (le_of_eq hAlen)
  have hfM : findPill (s.take i ++ pillPre ++ n1 ++ R) = some i := by
    rw [hMassoc]
    apply findFirstIdx_eq_some
    · simp
      omega
    · rw [hMdrop i (le_refl i), hA0, List.nil_append, pillMatch_iff]
      refine ⟨List.prefix_append _ _, ?_⟩
      rcases hcons : n1 with _ | ⟨c, t⟩
      · exact absurd hcons hne
      · refine ⟨c, ?_, ?_⟩
        · rw [show pillPre.length = pillPre.length + 0 by omega,
            List.drop_append, List.drop_zero]
          rfl
        · intro hcl
          apply hn1
          rw [hcons, hcl]
          simp
    · intro j hj
      rw [hMdrop j (by omega)]
      have hpm := pillMatch_eq_of_take36
        (take36_append_eq (C := (s.take i).drop j)
          (X := n1 ++ R) (Y := s.drop (i + pillPre.length))
          (by simp only [List.length_drop, hAlen]; omega))
      rw [hpm, ← hsplit j (by omega)]
      exact hspec.2 j hj
  rw [refresh_of_some n2 hfM]
  have hMd35 : (s.take i ++ pillPre ++ n1 ++ R).drop (i + pillPre.length) =
      n1 ++ R := by
    rw [hMassoc, ← List.drop_drop, hMdrop i (le_refl i), hA0, List.nil_append,
      show pillPre.length = pillPre.length + 0 by omega,
      List.drop_append, List.drop_zero]
  have hMrl : (((s.take i ++ pillPre ++ n1 ++ R).drop
        (i + pillPre.length)).takeWhile (fun c => c != '<')).length =
      n1.length := by
    rw [hMd35, takeWhile_all_append _ hRt]
    intro c hc
    have hcn : c ≠ '<' := fun hcl => hn1 (hcl ▸ hc)
    simpa using hcn
  rw [hMrl]
  have hMtake : (s.take i ++ pillPre ++ n1 ++ R).take i = s.take i := by
    rw [hMassoc, List.take_append_of_le_length (by omega), List.take_take]
    congr 1
    omega
  have hMdropEnd : (s.take i ++ pillPre ++ n1 ++ R).drop
      (i + pillPre.length + n1.length) = R := by
    rw [← List.drop_drop, hMd35, show n1.length = n1.length + 0 by omega,
      List.drop_append, List.drop_zero]
  rw [hMtake, hMdropEnd]

/-- A second `re.sub` with a new timestamp rewrites exactly the matches the
first one rewrote: substitution composes to a single substitution. -/
theorem refresh_refresh {n1 : List Char} (hne : n1 ≠ []) (hn1 : '<' ∉ n1)
    (n2 : List Char) : ∀ s : List Char, refresh n2 (refresh n1 s) = refresh n2 s := by
  have main : ∀ N, ∀ s : List Char, s.length ≤ N →
      refresh n2 (refresh n1 s) = refresh n2 s := by
    intro N
    induction N with
    | zero =>
      intro s hs
      have hs0 : s = [] := by
        cases s with
        | nil => rfl
        | cons a t => simp at hs
      subst hs0
      rw [refresh_nil, refresh_nil]
    | succ N ih =>
      intro s hs
      rcases hf : findPill s with _ | i
      · rw [refresh_of_none _ hf]
      · have hbd := findPill_bounds hf
        have hp35 : pillPre.length = 35 := pillPre_len
        have hrlle : i + pillPre.length +
            ((s.drop (i + pillPre.length)).takeWhile (fun c => c != '<')).length ≤
              s.length := by
          have h9 := (List.takeWhile_prefix
            (l := s.drop (i + pillPre.length)) (fun c => c != '<')).length_le
          simp only [List.length_drop] at h9
          omega
        -- the rewritten tail is empty or starts with `<`
        have hRt : (refresh n1 (s.drop (i + pillPre.length +
            ((s.drop (i + pillPre.length)).takeWhile
              (fun c => c != '<')).length))).takeWhile (fun c => c != '<') = [] := by
          rcases hsp : (s.drop (i + pillPre.length +
              ((s.drop (i + pillPre.length)).takeWhile
                (fun c => c != '<')).length)).head? with _ | c
          · rw [List.head?_eq_none_iff] at hsp
            rw [hsp, refresh_nil]
            rfl
          · have hdd : s.drop (i + pillPre.length +
                ((s.drop (i + pillPre.length)).takeWhile
                  (fun c => c != '<')).length) =
                (s.drop (i + pillPre.length)).drop
                  ((s.drop (i + pillPre.length)).takeWhile
                    (fun c => c != '<')).length := by
              rw [List.drop_drop]
            have hfail : (fun x => x != '<') c = false := by
              refine takeWhile_head_fail (p := fun x => x != '<')
                (l := s.drop (i + pillPre.length)) ?_
              rw [← hdd]
              exact hsp
            have hc : c = '<' := by simpa using hfail
            apply takeWhile_nil_of_head (c := '<')
            · apply refresh_head_lt
              rw [hsp, hc]
            · decide
        rw [refresh_of_some n1 hf, refresh_step hf hne hn1 hRt n2,
          ih (s.drop (i + pillPre.length +
            ((s.drop (i + pillPre.length)).takeWhile (fun c => c != '<')).length))
            (by simp only [List.length_drop]; omega),
          refresh_of_some n2 hf]
  intro s
  exact main s.length s (le_refl _)

/-- Error message of the `FileNotFoundError` raised by `inject_into_file`. -/
def errNotFound : List Char := strL "target not found."

/-- Error message of the `RuntimeError` raised by `inject_into_file`. -/
def errNoMarkers : List Char :=
  strL "Markers <!-- PUBLIST:START --> / <!-- PUBLIST:END --> not found in target HTML."

/-- `inject_into_file(target_path, inner_html)` from
`scripts/build_publications.py`, with the filesystem modelled as the target
file's optional content, and `datetime.utcnow().strftime(...)` passed in as
`now`.  The first component is the raised exception or normal return, the
second the file content after the call (the single `write_text` at the end). -/
def inject_into_file (file : Option (List Char)) (inner_html now : List Char) :
    Except (List Char) (List Char) × Option (List Char) :=
  match file with
  | none => (Except.error errNotFound, none)
  | some html =>
    if !(containsSub html startMarker) || !(containsSub html endMarker) then
      (Except.error errNoMarkers, some html)
    else
      let p1 := partition3 html startMarker
      let p2 := partition3 p1.2.2 endMarker
      let out := refresh now
        (p1.1 ++ startMarker ++ ['\n'] ++ inner_html ++ ['\n'] ++ p2.2.1 ++ p2.2.2)
      (Except.ok out, some out)

theorem inject_some_eq {html : List Char} (inner now : List Char)
    (h1 : containsSub html startMarker = true)
    (h2 : containsSub html endMarker = true) :
    inject_into_file (some html) inner now =
      (Except.ok (refresh now
        ((partition3 html startMarker).1 ++ startMarker ++ ['\n'] ++ inner ++
          ['\n'] ++ (partition3 (partition3 html startMarker).2.2 endMarker).2.1 ++
          (partition3 (partition3 html startMarker).2.2 endMarker).2.2)),
       some (refresh now
        ((partition3 html startMarker).1 ++ startMarker ++ ['\n'] ++ inner ++
          ['\n'] ++ (partition3 (partition3 html startMarker).2.2 endMarker).2.1 ++
          (partition3 (partition3 html startMarker).2.2 endMarker).2.2))) := by
  simp [inject_into_file, h1, h2]

/-- A hand-authored page without markers and without a `</main>` tag. -/
def docNoMarkers : List Char := strL "<html><body>plain page</body></html>"

/-- A hand-authored page without markers but with a closing `</main>` tag. -/
def docMainOnly : List Char := strL "<html><main><p>pubs</p></main></html>"

/-- A sample rendered fragment. -/
def fragDemo : List Char :=
  strL "<section class=\"year-block\"><ol><li>item</li></ol></section>"

/-- A sample strftime timestamp. -/
def tsDemo1 : List Char := strL "2025-01-01 00:00 UTC"

/-- Another sample strftime timestamp. -/
def tsDemo2 : List Char := strL "2025-02-02 12:30 UTC"

/-- C7: on any injection failure — the target file missing, or the marker pair
absent with the `</main>` fallback tag also absent — the call raises an error,
no write occurs, and the target's content is unchanged byte for byte. -/
theorem C7_inject_failure_no_write (file : Option (List Char)) (inner now : List Char)
    (h : file = none ∨ ∃ html, file = some html ∧
      (containsSub html startMarker = false ∨ containsSub html endMarker = false) ∧
      containsSub html (strL "</main>") = false) :
    (∃ e, (inject_into_file file inner now).1 = Except.error e) ∧
      (inject_into_file file inner now).2 = file := by
  rcases h with h | ⟨html, rfl, hm, _⟩
  · subst h
    exact ⟨⟨errNotFound, rfl⟩, rfl⟩
  · rcases hm with hm | hm
    · refine ⟨⟨errNoMarkers, ?_⟩, ?_⟩ <;> simp [inject_into_file, hm]
    · refine ⟨⟨errNoMarkers, ?_⟩, ?_⟩ <;> simp [inject_into_file, hm]

theorem C7_witness :
    (some docNoMarkers = none ∨ ∃ html, some docNoMarkers = some html ∧
      (containsSub html startMarker = false ∨ containsSub html endMarker = false) ∧
      containsSub html (strL "</main>") = false) ∧
    ((∃ e, (inject_into_file (some docNoMarkers) fragDemo tsDemo1).1 =
        Except.error e) ∧
      (inject_into_file (some docNoMarkers) fragDemo tsDemo1).2 =
        some docNoMarkers) :=
  ⟨Or.inr ⟨docNoMarkers, rfl, Or.inl (by decide), by decide⟩,
   C7_inject_failure_no_write _ _ _
     (Or.inr ⟨docNoMarkers, rfl, Or.inl (by decide), by decide⟩)⟩

/-- C3, counterexample: on a document with a closing `</main>` tag but no
markers, `inject_into_file` raises (there is no structural-tag fallback in the
code) and writes nothing, contrary to the claimed fallback insertion. -/
theorem C3_counterexample :
    containsSub docMainOnly (strL "</main>") = true ∧
    containsSub docMainOnly startMarker = false ∧
    containsSub docMainOnly endMarker = false ∧
    (inject_into_file (some docMainOnly) fragDemo tsDemo1).1 =
      Except.error errNoMarkers ∧
    (inject_into_file (some docMainOnly) fragDemo tsDemo1).2 = some docMainOnly := by
  refine ⟨by decide, by decide, by decide, by rfl, by rfl⟩

/-- C3, amended: when the marker pair is absent, injection fails with the
marker error and leaves the document unchanged, even when the document
contains a closing `</main>` tag; no fallback insertion happens. -/
theorem C3_missing_markers_error (html inner now : List Char)
    (_hmain : containsSub html (strL "</main>") = true)
    (h : containsSub html startMarker = false ∨ containsSub html endMarker = false) :
    inject_into_file (some html) inner now = (Except.error errNoMarkers, some html) := by
  rcases h with h | h <;> simp [inject_into_file, h]

theorem C3_witness :
    containsSub docMainOnly (strL "</main>") = true ∧
    (containsSub docMainOnly startMarker = false ∨
      containsSub docMainOnly endMarker = false) ∧
    inject_into_file (some docMainOnly) fragDemo tsDemo1 =
      (Except.error errNoMarkers, some docMainOnly) :=
  ⟨by decide, Or.inl (by decide),
   C3_missing_markers_error _ _ _ (by decide) (Or.inl (by decide))⟩

theorem startMarker_no_pre_pill :
    ∀ k, k < startMarker.length → ¬ (startMarker.drop k <+: pillPre) := by decide

theorem endMarker_no_pre_pill :
    ∀ k, k < endMarker.length → ¬ (endMarker.drop k <+: pillPre) := by decide

theorem startMarker_no_overlap : NoOverlap startMarker := by decide

theorem endMarker_no_overlap : NoOverlap endMarker := by decide

theorem startMarker_inner_not_lt :
    ∀ d, d < startMarker.length → 0 < d → startMarker[d]? ≠ some '<' := by decide

/-- `re.sub` acts independently left of the start marker, between the markers
and right of the end marker. -/
theorem refresh_marker_split (nn x F y : List Char) :
    refresh nn (x ++ (startMarker ++ (F ++ (endMarker ++ y)))) =
      refresh nn x ++ (startMarker ++ (refresh nn F ++ (endMarker ++ refresh nn y))) := by
  rw [refresh_append_lt nn
      (by rw [List.head?_append, (by rfl : startMarker.head? = some '<')]; rfl),
    refresh_append_short (by decide) startMarker_no_pre_pill nn,
    refresh_append_lt nn
      (by rw [List.head?_append, (by rfl : endMarker.head? = some '<')]; rfl),
    refresh_append_short (by decide) endMarker_no_pre_pill nn]

/-- C4: injecting into a document with exactly one occurrence of each marker
(the start marker first), then injecting the identical fragment again,
succeeds both times; the second output equals the single-run output with the
fresh timestamp, and differs from the first output only by re-running the
timestamp substitution with the new time. -/
theorem C4_inject_idempotent {html frag n1 n2 : List Char} {i j : Nat}
    (hocc1 : startMarker <+: html.drop i)
    (hu1 : ∀ k, startMarker <+: html.drop k → k = i)
    (hocc2 : endMarker <+: html.drop j)
    (hu2 : ∀ k, endMarker <+: html.drop k → k = j)
    (hij : i < j)
    (hfE : ¬ Occurs ('\n' :: (frag ++ ['\n'])) endMarker)
    (hn1ne : n1 ≠ []) (hn1lt : '<' ∉ n1) :
    ∃ out1 out2,
      inject_into_file (some html) frag n1 = (Except.ok out1, some out1) ∧
      inject_into_file (some out1) frag n2 = (Except.ok out2, some out2) ∧
      inject_into_file (some html) frag n2 = (Except.ok out2, some out2) ∧
      out2 = refresh n2 out1 := by
  have hSlen : startMarker.length = 22 := by decide
  have hElen : endMarker.length = 20 := by decide
  have hSne : startMarker ≠ [] := by decide
  have hEne : endMarker ≠ [] := by decide
  -- the end marker cannot start inside the start marker, so `j ≥ i + 22`
  have hgap : i + startMarker.length ≤ j := by
    by_contra hbad
    have hd := pre_drop_decomp hocc1
    have hsplit : html.drop j = startMarker.drop (j - i) ++
        html.drop (i + startMarker.length) := by
      have : html.drop j = (html.drop i).drop (j - i) := by
        rw [List.drop_drop]
        congr 1
        omega
      rw [this, hd, List.drop_append_of_le_length (by omega)]
    have hhd := pre_head (hsplit ▸ hocc2) (show endMarker.head? = some '<' by rfl)
    rw [List.head?_append, List.head?_drop] at hhd
    rcases hh : startMarker[j - i]? with _ | c
    · rw [List.getElem?_eq_none_iff] at hh
      omega
    · rw [hh] at hhd
      have hc : c = '<' := by simpa using hhd
      exact startMarker_inner_not_lt (j - i) (by omega) (by omega) (hc ▸ hh)
  -- decomposition of the document around the two unique markers
  have hd1 : html = html.take i ++
      (startMarker ++ html.drop (i + startMarker.length)) := by
    conv_lhs => rw [← List.take_append_drop i html]
    rw [pre_drop_decomp hocc1]
  have hd2 : html.drop (i + startMarker.length) =
      (html.drop (i + startMarker.length)).take (j - i - startMarker.length) ++
        (endMarker ++ html.drop (j + endMarker.length)) := by
    conv_lhs =>
      rw [← List.take_append_drop (j - i - startMarker.length)
        (html.drop (i + startMarker.length))]
    congr 1
    rw [List.drop_drop, show i + startMarker.length +
      (j - i - startMarker.length) = j by omega, pre_drop_decomp hocc2]
  -- abbreviations (plain terms, stated once)
  have hna_S : ¬ Occurs (html.take i) startMarker :=
    not_occurs_take hSne hu1 (le_refl i)
  have hnm_E : ¬ Occurs ((html.drop (i + startMarker.length)).take
      (j - i - startMarker.length)) endMarker :=
    not_occurs_seg hEne hu2 (by omega)
  have hnc_allS : ¬ Occurs (html.drop (j + endMarker.length)) startMarker :=
    not_occurs_late hu1 (by omega)
  have hnc_allE : ¬ Occurs (html.drop (j + endMarker.length)) endMarker :=
    not_occurs_late hu2 (by omega)
  have hc1 : containsSub html startMarker = true :=
    containsSub_of_occurs ⟨i, hocc1⟩
  have hc2 : containsSub html endMarker = true :=
    containsSub_of_occurs ⟨j, hocc2⟩
  have hp1 : partition3 html startMarker =
      (html.take i, startMarker,
        (html.drop (i + startMarker.length)).take (j - i - startMarker.length) ++
          (endMarker ++ html.drop (j + endMarker.length))) := by
    conv_lhs => rw [hd1, hd2]
    exact partition3_eq startMarker_no_overlap hna_S
  have hp2 : partition3
      ((html.drop (i + startMarker.length)).take (j - i - startMarker.length) ++
        (endMarker ++ html.drop (j + endMarker.length))) endMarker =
      ((html.drop (i + startMarker.length)).take (j - i - startMarker.length),
        endMarker, html.drop (j + endMarker.length)) :=
    partition3_eq endMarker_no_overlap hnm_E
  have hrun1 := inject_some_eq frag n1 hc1 hc2
  rw [hp1, hp2] at hrun1
  -- structure of the first output
  have hbody : ∀ x y : List Char,
      x ++ startMarker ++ ['\n'] ++ frag ++ ['\n'] ++ endMarker ++ y =
        x ++ (startMarker ++ (('\n' :: (frag ++ ['\n'])) ++ (endMarker ++ y))) := by
    intro x y
    simp [List.append_assoc]
  rw [hbody] at hrun1
  rw [refresh_marker_split] at hrun1
  -- the second injection
  have hnA1_S : ¬ Occurs (refresh n1 (html.take i)) startMarker :=
    refresh_no_occurs (by rfl) (by decide)
      (fun d hd1' hd2' => startMarker_no_pre_pill d hd2')
      hn1lt _ hna_S
  have hnF1_E : ¬ Occurs (refresh n1 ('\n' :: (frag ++ ['\n']))) endMarker :=
    refresh_no_occurs (by rfl) (by decide)
      (fun d hd1' hd2' => endMarker_no_pre_pill d hd2')
      hn1lt _ hfE
  have hq1 : partition3
      (refresh n1 (html.take i) ++ (startMarker ++
        (refresh n1 ('\n' :: (frag ++ ['\n'])) ++
          (endMarker ++ refresh n1 (html.drop (j + endMarker.length))))))
      startMarker =
      (refresh n1 (html.take i), startMarker,
        refresh n1 ('\n' :: (frag ++ ['\n'])) ++
          (endMarker ++ refresh n1 (html.drop (j + endMarker.length)))) :=
    partition3_eq startMarker_no_overlap hnA1_S
  have hq2 : partition3
      (refresh n1 ('\n' :: (frag ++ ['\n'])) ++
        (endMarker ++ refresh n1 (html.drop (j + endMarker.length)))) endMarker =
      (refresh n1 ('\n' :: (frag ++ ['\n'])), endMarker,
        refresh n1 (html.drop (j + endMarker.length))) :=
    partition3_eq endMarker_no_overlap hnF1_E
  have hoc1' : Occurs (refresh n1 (html.take i) ++ (startMarker ++
      (refresh n1 ('\n' :: (frag ++ ['\n'])) ++
        (endMarker ++ refresh n1 (html.drop (j + endMarker.length))))))
      startMarker :=
    occurs_shift ⟨0, by rw [List.drop_zero]; exact List.prefix_append _ _⟩
  have hoc2' : Occurs (refresh n1 (html.take i) ++ (startMarker ++
      (refresh n1 ('\n' :: (frag ++ ['\n'])) ++
        (endMarker ++ refresh n1 (html.drop (j + endMarker.length))))))
      endMarker := by
    apply occurs_shift
    apply occurs_shift
    apply occurs_shift
    exact ⟨0, by rw [List.drop_zero]; exact List.prefix_append _ _⟩
  have hrun2 := inject_some_eq frag n2
    (containsSub_of_occurs hoc1') (containsSub_of_occurs hoc2')
  rw [hq1, hq2] at hrun2
  rw [hbody] at hrun2
  rw [refresh_marker_split] at hrun2
  -- the single fresh-timestamp injection
  have hrun3 := inject_some_eq frag n2 hc1 hc2
  rw [hp1, hp2] at hrun3
  rw [hbody] at hrun3
  rw [refresh_marker_split] at hrun3
  -- collapse double substitution
  have hrr := refresh_refresh hn1ne hn1lt n2
  rw [hrr, hrr] at hrun2
  refine ⟨_, _, hrun1, hrun2, hrun3, ?_⟩
  -- second output = timestamp-refresh of the first output
  rw [refresh_marker_split, hrr, hrr, hrr]

/-- A page carrying a valid marker pair and a timestamp pill. -/
def docWithMarkers : List Char :=
  strL "<html><body>\n<!-- PUBLIST:START -->\nold list\n<!-- PUBLIST:END -->\n<span>Updated automatically from PubMed: 2024-06-30 09:00 UTC</span>\n</body></html>"

theorem C4_witness :
    (startMarker <+: docWithMarkers.drop 13) ∧
    (endMarker <+: docWithMarkers.drop 45) ∧ 13 < 45 ∧
    (∃ out1 out2,
      inject_into_file (some docWithMarkers) fragDemo tsDemo1 =
        (Except.ok out1, some out1) ∧
      inject_into_file (some out1) fragDemo tsDemo2 =
        (Except.ok out2, some out2) ∧
      inject_into_file (some docWithMarkers) fragDemo tsDemo2 =
        (Except.ok out2, some out2) ∧
      out2 = refresh tsDemo2 out1) :=
  ⟨by decide, by decide, by decide,
   C4_inject_idempotent (i := 13) (j := 45) (by decide)
     (unique_of_bounded (by decide) (by decide))
     (by decide)
     (unique_of_bounded (by decide) (by decide))
     (by decide)
     (not_occurs_of_bounded (by decide) (by decide))
     (by decide) (by decide)⟩

/-! ### Network transport model for `esearch` / `esummary` -/

/-- Events observable on the network and clock effects of the script:
HTTP requests issued by `esearch`/`esummary` and `time.sleep(0.34)`
(recorded in hundredths of a second). -/
inductive NetEvent where
  | fetchSearch (term : List Char) (retmax : Nat)
  | fetchSummary (ids : List (List Char))
  | sleepCs (centis : Nat)
  deriving DecidableEq

/-- Parsed JSON body of an `esearch.fcgi` response: `esearchresult.idlist`. -/
structure SearchResp where
  idlist : List (List Char)
  deriving DecidableEq

/-- One ESummary record, with exactly the JSON fields the script reads.
Missing keys and `None` values behave like `""`/`[]` under the script's
`or` / default accesses, so fields are modelled by their falsy-defaulted
values directly. -/
structure SumRec where
  uid : List Char
  title : List Char
  fulljournalname : List Char
  source : List Char
  pubdate : List Char
  authors : List (List Char)
  articleids : List (List Char × List Char)
  deriving DecidableEq, Inhabited

/-- Parsed JSON body of an `esummary.fcgi` response: `result.uids` and the
per-uid records of `result`. -/
structure SumResp where
  uids : List (List Char)
  result : List (List Char × SumRec)
  deriving DecidableEq

/-- `esearch(term, retmax)`: a single `urlopen` (no retry logic exists).
`net` maps the index of the HTTP request to its outcome (a raised transport
exception or a parsed body); `k` counts requests already issued.  Returns the
PMID list, the next request counter, and the emitted events. -/
def esearch (net : Nat → Except (List Char) SearchResp) (term : List Char)
    (retmax : Nat) (k : Nat) :
    Except (List Char) (List (List Char)) × Nat × List NetEvent :=
  match net k with
  | Except.error e => (Except.error e, k + 1, [NetEvent.fetchSearch term retmax])
  | Except.ok r => (Except.ok r.idlist, k + 1, [NetEvent.fetchSearch term retmax])

/-- `chunked(seq, n)`: `seq[i:i+n]` for `i in range(0, len(seq), n)`. -/
def chunked {α : Type} (seq : List α) (n : Nat) : List (List α) :=
  (List.range' 0 ((seq.length + n - 1) / n) n).map (fun i => (seq.drop i).take n)

/-- The batch loop of `esummary`: per batch one `urlopen` (a raised transport
exception propagates), collection of the records found for `result.uids`,
then `time.sleep(0.34)`. -/
def esummaryGo (net : Nat → Except (List Char) SumResp) :
    List (List (List Char)) → Nat →
      Except (List Char) (List SumRec) × Nat × List NetEvent
  | [], k => (Except.ok [], k, [])
  | batch :: rest, k =>
    match net k with
    | Except.error e => (Except.error e, k + 1, [NetEvent.fetchSummary batch])
    | Except.ok data =>
      let recs := data.uids.filterMap (fun uid =>
        match data.result.find? (fun kv => kv.1 == uid) with
        | some kv => some kv.2
        | none => none)
      match esummaryGo net rest (k + 1) with
      | (Except.error e, k', evs) =>
        (Except.error e, k',
          NetEvent.fetchSummary batch :: NetEvent.sleepCs 34 :: evs)
      | (Except.ok out, k', evs) =>
        (Except.ok (recs ++ out), k',
          NetEvent.fetchSummary batch :: NetEvent.sleepCs 34 :: evs)

/-- `esummary(pmids)`: batched at a maximum of 200 identifiers per call. -/
def esummary (net : Nat → Except (List Char) SumResp)
    (pmids : List (List Char)) (k : Nat) :
    Except (List Char) (List SumRec) × Nat × List NetEvent :=
  esummaryGo net (chunked pmids 200) k

/-- The per-term `esearch` loop of `main` (`for t in terms: ids = esearch(t)`):
an exception from any single call propagates and aborts the whole run. -/
def searchAll (net : Nat → Except (List Char) SearchResp) (retmax : Nat) :
    List (List Char) → Nat →
      Except (List Char) (List (List Char)) × Nat × List NetEvent
  | [], k => (Except.ok [], k, [])
  | t :: ts, k =>
    match esearch net t retmax k with
    | (Except.error e, k', evs) => (Except.error e, k', evs)
    | (Except.ok ids, k', evs) =>
      match searchAll net retmax ts k' with
      | (Except.error e, k'', evs') => (Except.error e, k'', evs ++ evs')
      | (Except.ok rest, k'', evs') => (Except.ok (ids ++ rest), k'', evs ++ evs')

/-- C6, counterexample: with a transport that always fails, the first query
term's search issues a single HTTP request — it is not retried — and the
whole run aborts with the error; the second term is never searched. -/
theorem C6_counterexample :
    searchAll (fun _ => Except.error (strL "URLError")) 200
        [strL "Angers S[Author] AND (1999:3000[DP])", strL "Wnt signaling"] 0 =
      (Except.error (strL "URLError"), 1,
        [NetEvent.fetchSearch (strL "Angers S[Author] AND (1999:3000[DP])") 200]) :=
  rfl

/-- C6, amended: every search or summary request is issued exactly once, with
no retry and no backoff; a transport failure propagates immediately and is
fatal for the entire run, not only for the failing query term. -/
theorem C6_no_retry_failure_aborts_run
    (net : Nat → Except (List Char) SearchResp) (retmax : Nat)
    (t : List Char) (ts : List (List Char)) (k : Nat) (e : List Char)
    (h : net k = Except.error e) :
    (∀ term k', (esearch net term retmax k').2.1 = k' + 1 ∧
      (esearch net term retmax k').2.2 = [NetEvent.fetchSearch term retmax]) ∧
    (∀ (net' : Nat → Except (List Char) SumResp) batch rest k' e',
      net' k' = Except.error e' →
      esummaryGo net' (batch :: rest) k' =
        (Except.error e', k' + 1, [NetEvent.fetchSummary batch])) ∧
    searchAll net retmax (t :: ts) k =
      (Except.error e, k + 1, [NetEvent.fetchSearch t retmax]) := by
  refine ⟨?_, ?_, ?_⟩
  · intro term k'
    rcases hnk : net k' with e' | r <;> simp [esearch, hnk]
  · intro net' batch rest k' e' h'
    simp [esummaryGo, h']
  · simp [searchAll, esearch, h]

theorem C6_witness :
    ((fun _ : Nat => Except.error (strL "timed out") :
        Nat → Except (List Char) SearchResp) 0 =
      Except.error (strL "timed out")) ∧
    ((∀ term k', (esearch (fun _ => Except.error (strL "timed out")) term 200 k').2.1 =
        k' + 1 ∧
      (esearch (fun _ => Except.error (strL "timed out")) term 200 k').2.2 =
        [NetEvent.fetchSearch term 200]) ∧
    (∀ (net' : Nat → Except (List Char) SumResp) batch rest k' e',
      net' k' = Except.error e' →
      esummaryGo net' (batch :: rest) k' =
        (Except.error e', k' + 1, [NetEvent.fetchSummary batch])) ∧
    searchAll (fun _ => Except.error (strL "timed out")) 200
        [strL "Angers S[Author]"] 0 =
      (Except.error (strL "timed out"), 1,
        [NetEvent.fetchSearch (strL "Angers S[Author]") 200])) :=
  ⟨rfl, C6_no_retry_failure_aborts_run _ 200 _ [] 0 _ rfl⟩

/-- C8: for a 450-identifier list and a transport answering three requests,
the summary stage makes exactly 3 batched calls of sizes 200, 200 and 50 —
never more than 200 identifiers per call — with the 0.34 s polite delay
observed after each call, in particular between successive calls. -/
theorem C8_batching (net : Nat → Except (List Char) SumResp)
    (pmids : List (List Char)) (k : Nat)
    (hlen : pmids.length = 450)
    (hnet : ∀ t, t < 3 → ∃ r, net (k + t) = Except.ok r) :
    (esummary net pmids k).2.2 =
      [NetEvent.fetchSummary (pmids.take 200), NetEvent.sleepCs 34,
       NetEvent.fetchSummary ((pmids.drop 200).take 200), NetEvent.sleepCs 34,
       NetEvent.fetchSummary (pmids.drop 400), NetEvent.sleepCs 34] ∧
    (pmids.take 200).length = 200 ∧
    ((pmids.drop 200).take 200).length = 200 ∧
    (pmids.drop 400).length = 50 ∧
    (esummary net pmids k).2.1 = k + 3 ∧
    ∃ out, (esummary net pmids k).1 = Except.ok out := by
  obtain ⟨r0, h0⟩ := hnet 0 (by omega)
  obtain ⟨r1, h1⟩ := hnet 1 (by omega)
  obtain ⟨r2, h2⟩ := hnet 2 (by omega)
  rw [show k + 0 = k by omega] at h0
  have hch : chunked pmids 200 =
      [pmids.take 200, (pmids.drop 200).take 200, (pmids.drop 400).take 200] := by
    unfold chunked
    rw [hlen]
    norm_num
    simp [List.range']
  have h450 : (pmids.drop 400).take 200 = pmids.drop 400 := by
    apply List.take_of_length_le
    simp [hlen]
  have hcomp : esummary net pmids k =
      esummaryGo net
        [pmids.take 200, (pmids.drop 200).take 200, (pmids.drop 400).take 200] k := by
    rw [esummary, hch]
  rw [hcomp, h450]
  simp only [esummaryGo, h0, show k + 1 + 1 = k + 2 by omega, h1, h2]
  refine ⟨?_, ?_, ?_, ?_, ?_, ?_⟩
  · trivial
  · simp only [List.length_take, List.length_drop, hlen]
    omega
  · simp only [List.length_take, List.length_drop, hlen]
    omega
  · simp only [List.length_drop, hlen]
  · trivial
  · exact ⟨_, rfl⟩

/-! ### Record normalization, grouping and rendering -/

/-- ASCII whitespace stripped by Python's `str.strip()` (the script's inputs
are modelled over this set). -/
def isPySpace (c : Char) : Bool :=
  c = ' ' || c = '\t' || c = '\n' || c = '\r' || c = '\x0b' || c = '\x0c'

/-- Python's `s.strip()`. -/
def pyStrip (s : List Char) : List Char :=
  ((s.dropWhile isPySpace).reverse.dropWhile isPySpace).reverse

/-- Python's `s.rstrip(".")`: remove every trailing period. -/
def pyRstripDot (s : List Char) : List Char :=
  (s.reverse.dropWhile (fun c => c = '.')).reverse

/-- The regex `(19|20)\d{2}` matches at the head of `t`. -/
def yearMatch (t : List Char) : Bool :=
  match t with
  | a :: b :: c :: d :: _ =>
    ((a = '1' && b = '9') || (a = '2' && b = '0')) && c.isDigit && d.isDigit
  | _ => false

/-- Decimal value of a digit string (`int` on a matched year / PMID). -/
def natOfDigits (s : List Char) : Nat :=
  s.foldl (fun acc c => acc * 10 + (c.toNat - '0'.toNat)) 0

/-- `re.search(r"(19|20)\d{2}", pubdate)`: value of the leftmost match,
`0` when there is none. -/
def yearOf (pubdate : List Char) : Nat :=
  match findFirstIdx yearMatch pubdate with
  | some i => natOfDigits ((pubdate.drop i).take 4)
  | none => 0

/-- `sep.join(parts)`. -/
def joinSep (sep : List Char) : List (List Char) → List Char
  | [] => []
  | [x] => x
  | x :: xs => x ++ sep ++ joinSep sep xs

/-- The normalized record produced by `normalize_record`. -/
structure NormRec where
  title : List Char
  journal : List Char
  year : Nat
  pubdate : List Char
  authors : List (List Char)
  doi : List Char
  pmid : List Char
  search_text : List Char
  deriving DecidableEq, Inhabited

/-- `normalize_record(rec)`: map an ESummary record to the normalized fields
used for rendering and search. -/
def normalize_record (rec : SumRec) : NormRec :=
  let title := pyRstripDot (pyStrip rec.title)
  let journal := pyStrip
    (if rec.fulljournalname.isEmpty then rec.source else rec.fulljournalname)
  let pubdate := rec.pubdate
  let year := yearOf pubdate
  let authors := rec.authors.filter (fun n => !n.isEmpty)
  let doi := match rec.articleids.find? (fun idobj => idobj.1 == strL "doi") with
    | some idobj => idobj.2
    | none => []
  let pmid := rec.uid
  let search_text :=
    (joinSep (strL " ")
      [title, journal, pubdate, joinSep (strL " ") authors, doi, pmid]).map
      Char.toLower
  ⟨title, journal, year, pubdate, authors, doi, pmid, search_text⟩

/-- Insert `a` before the first element `b` with `le a b`: on a tie the
inserted element comes first, and since `stableSort` inserts earlier-original
elements into the sorted remainder, ties keep their original order — the
insertion step of a stable sort. -/
def insertSorted {α : Type} (le : α → α → Bool) (a : α) : List α → List α
  | [] => [a]
  | b :: t => if le a b then a :: b :: t else b :: insertSorted le a t

/-- A stable sort by the boolean comparator `le`: the semantics of Python's
`sorted(..., key=...)` / `list.sort` (stability included), in a structurally
recursive form. -/
def stableSort {α : Type} (le : α → α → Bool) : List α → List α
  | [] => []
  | a :: t => insertSorted le a (stableSort le t)

theorem insertSorted_perm {α : Type} (le : α → α → Bool) (a : α) :
    ∀ l : List α, (insertSorted le a l).Perm (a :: l) := by
  intro l
  induction l with
  | nil => simp [insertSorted]
  | cons b t ih =>
    by_cases h : le a b = true
    · simp [insertSorted, h]
    · simp only [insertSorted, if_neg h]
      exact (ih.cons b).trans (List.Perm.swap a b t)

theorem stableSort_perm {α : Type} (le : α → α → Bool) :
    ∀ l : List α, (stableSort le l).Perm l := by
  intro l
  induction l with
  | nil => simp [stableSort]
  | cons a t ih =>
    exact ((insertSorted_perm le a (stableSort le t)).trans (ih.cons a))

theorem insertSorted_sorted {α : Type} {le : α → α → Bool}
    (htrans : ∀ a b c, le a b = true → le b c = true → le a c = true)
    (htot : ∀ a b, le a b = true ∨ le b a = true) (a : α) :
    ∀ {l : List α}, l.Pairwise (fun x y => le x y = true) →
      (insertSorted le a l).Pairwise (fun x y => le x y = true) := by
  intro l
  induction l with
  | nil => intro _; simp [insertSorted]
  | cons b t ih =>
    intro hl
    rcases List.pairwise_cons.mp hl with ⟨hb, ht⟩
    by_cases h : le a b = true
    · simp only [insertSorted, if_pos h]
      rw [List.pairwise_cons]
      refine ⟨?_, hl⟩
      intro y hy
      rcases List.mem_cons.mp hy with rfl | hy'
      · exact h
      · exact htrans a b y h (hb y hy')
    · simp only [insertSorted, if_neg h]
      rw [List.pairwise_cons]
      have hba : le b a = true := by
        rcases htot a b with hh | hh
        · exact absurd hh h
        · exact hh
      refine ⟨?_, ih ht⟩
      intro y hy
      have hy' := (insertSorted_perm le a t).mem_iff.mp hy
      rcases List.mem_cons.mp hy' with rfl | hy''
      · exact hba
      · exact hb y hy''

theorem stableSort_sorted {α : Type} {le : α → α → Bool}
    (htrans : ∀ a b c, le a b = true → le b c = true → le a c = true)
    (htot : ∀ a b, le a b = true ∨ le b a = true) :
    ∀ l : List α, (stableSort le l).Pairwise (fun x y => le x y = true) := by
  intro l
  induction l with
  | nil => simp [stableSort]
  | cons a t ih => exact insertSorted_sorted htrans htot a ih

/-- Lexicographic `≤` on Python strings (code-point order). -/
def strLe : List Char → List Char → Bool
  | [], _ => true
  | _ :: _, [] => false
  | a :: s, b :: t => if a = b then strLe s t else decide (a < b)

/-- Lexicographic `≤` on pairs of strings (Python tuple comparison). -/
def pairLe (x y : (List Char) × (List Char)) : Bool :=
  if x.1 = y.1 then strLe x.2 y.2 else strLe x.1 y.1

/-- The sort key `(pubdate or "", title or "")` used inside a year bucket. -/
def recKey (r : NormRec) : (List Char) × (List Char) := (r.pubdate, r.title)

/-- `list.sort(key=..., reverse=True)` inside one year bucket: a stable
descending sort. -/
def sortYearGroup (rs : List NormRec) : List NormRec :=
  stableSort (fun a b => pairLe (recKey b) (recKey a)) rs

/-- Distinct elements in order of first appearance (insertion order of a
Python dict's keys; also the model for `set` iteration in `main`). -/
def firstSeen {α : Type} [DecidableEq α] (seen : List α) : List α → List α
  | [] => []
  | y :: ys => if y ∈ seen then firstSeen seen ys else y :: firstSeen (y :: seen) ys

/-- `group_by_year(records)`: buckets by `year`, each bucket sorted by
`(pubdate, title)` descending, the whole dict ordered by year descending. -/
def group_by_year (records : List NormRec) : List (Nat × List NormRec) :=
  let keys := firstSeen [] (records.map (fun r => r.year))
  let byPairs := keys.map
    (fun y => (y, sortYearGroup (records.filter (fun r => r.year == y))))
  stableSort (fun a b => decide (b.1 ≤ a.1)) byPairs

/-- `search.replace('"', "&quot;")`. -/
def quoteEsc : List Char → List Char
  | [] => []
  | c :: t => (if c = '"' then strL "&quot;" else [c]) ++ quoteEsc t

/-- DOI link html, or `""`. -/
def doiHtml (r : NormRec) : List Char :=
  if r.doi.isEmpty then [] else
    strL "<a href=\"https://doi.org/" ++ r.doi ++
      strL "\" target=\"_blank\" rel=\"noopener\">DOI</a>"

/-- PMID link html, or `""`. -/
def pmidHtml (r : NormRec) : List Char :=
  if r.pmid.isEmpty then [] else
    strL "<a href=\"https://pubmed.ncbi.nlm.nih.gov/" ++ r.pmid ++
      strL "/\" target=\"_blank\" rel=\"noopener\">PMID:" ++ r.pmid ++ strL "</a>"

/-- `" · ".join(x for x in (doi_html, pmid_html) if x)`. -/
def linksOf (r : NormRec) : List Char :=
  joinSep (strL " · ") ([doiHtml r, pmidHtml r].filter (fun x => !x.isEmpty))

/-- One `<li>` of a numbered-year section (the six adjacent Python string
literals concatenate into a single `parts` entry with no newlines). -/
def liEntry (r : NormRec) : List Char :=
  strL "    <li class=\"pub\" data-search=\"" ++ quoteEsc r.search_text ++
  strL "\">      <div class=\"meta\">" ++ joinSep (strL ", ") r.authors ++
  strL "</div>      <div class=\"title\">" ++ r.title ++
  strL "</div>      <div class=\"journal\">" ++ r.journal ++
  strL "</div>      <div class=\"links\">" ++ linksOf r ++
  strL "</div>    </li>"

/-- One `<li>` of the undated section (links are the PMID link only). -/
def liEntryUndated (r : NormRec) : List Char :=
  strL "    <li class=\"pub\" data-search=\"" ++ quoteEsc r.search_text ++
  strL "\">      <div class=\"meta\">" ++ joinSep (strL ", ") r.authors ++
  strL "</div>      <div class=\"title\">" ++ r.title ++
  strL "</div>      <div class=\"journal\">" ++ r.journal ++
  strL "</div>      <div class=\"links\">" ++ pmidHtml r ++
  strL "</div>    </li>"

/-- `str(year)`. -/
def natToStr (n : Nat) : List Char := Nat.toDigits 10 n

/-- The `parts` entries of one numbered-year section. -/
def yearSectionParts (year : Nat) (recs : List NormRec) : List (List Char) :=
  [strL "<section class=\"year-block\" data-year=\"" ++ natToStr year ++ strL "\">",
   strL "  <h2 class=\"year\">" ++ natToStr year ++ strL "</h2>",
   strL "  <ol class=\"pubs\">"] ++
  recs.map liEntry ++
  [strL "  </ol>", strL "</section>"]

/-- The `parts` entries of the undated section. -/
def undatedSectionParts (recs : List NormRec) : List (List Char) :=
  [strL "<section class=\"year-block\" data-year=\"undated\">",
   strL "  <h2 class=\"year\">Undated</h2>",
   strL "  <ol class=\"pubs\">"] ++
  recs.map liEntryUndated ++
  [strL "  </ol>", strL "</section>"]

/-- The main `for year, recs in records_by_year.items()` loop (undated
entries are skipped with `continue`). -/
def mainLoopParts : List (Nat × List NormRec) → List (List Char)
  | [] => []
  | (year, recs) :: rest =>
    if year = 0 then mainLoopParts rest
    else yearSectionParts year recs ++ mainLoopParts rest

/-- `records_by_year.get(0, [])`. -/
def lookup0 (by_year : List (Nat × List NormRec)) : List NormRec :=
  match by_year.find? (fun kv => kv.1 == 0) with
  | some kv => kv.2
  | none => []

/-- `render_fragment(records_by_year)`. -/
def render_fragment (by_year : List (Nat × List NormRec)) : List Char :=
  joinSep (strL "\n")
    (mainLoopParts by_year ++
      (if by_year.any (fun kv => kv.1 == 0) then
        (if (lookup0 by_year).isEmpty then [] else undatedSectionParts (lookup0 by_year))
       else []))

/-- `main`'s `sorted(set(pmids), key=..., reverse=True)`: the PMID aggregation
after the per-term searches.  `set` iteration order is implementation-defined
in CPython and modelled as first-seen order; the established properties do not
depend on it. -/
def pmidKey (x : List Char) : Nat :=
  if x ≠ [] && x.all Char.isDigit then natOfDigits x else 0

/-- Lines 227: dedupe and order the concatenated PMID lists. -/
def dedupSortPmids (l : List (List Char)) : List (List Char) :=
  stableSort (fun a b => decide (pmidKey b ≤ pmidKey a)) (firstSeen [] l)

theorem dropWhile_head_not {p : Char → Bool} :
    ∀ {l : List Char} {c : Char}, (l.dropWhile p).head? = some c → p c = false := by
  intro l
  induction l with
  | nil => intro c h; simp at h
  | cons a t ih =>
    intro c h
    by_cases hp : p a = true
    · exact ih (by simpa [List.dropWhile_cons, hp] using h)
    · simp only [List.dropWhile_cons] at h
      rw [if_neg (by simpa using hp)] at h
      simp at h
      rw [← h]
      simpa using hp

/-- `rstrip(".")` removes exactly the maximal run of trailing periods. -/
theorem pyRstripDot_spec (s : List Char) :
    ∃ k, s = pyRstripDot s ++ List.replicate k '.' ∧
      (pyRstripDot s).getLast? ≠ some '.' := by
  refine ⟨(s.reverse.takeWhile (fun c => decide (c = '.'))).length, ?_, ?_⟩
  · conv_lhs =>
      rw [← s.reverse_reverse,
        ← List.takeWhile_append_dropWhile
          (p := fun c => decide (c = '.')) (l := s.reverse)]
    rw [List.reverse_append]
    unfold pyRstripDot
    congr 1
    have hall : ∀ x ∈ s.reverse.takeWhile (fun c => decide (c = '.')), x = '.' := by
      intro x hx
      have := List.mem_takeWhile_imp hx
      simpa using this
    rw [List.eq_replicate_of_mem hall, List.reverse_replicate]
    simp
  · unfold pyRstripDot
    rw [List.getLast?_reverse]
    intro hbad
    have := dropWhile_head_not hbad
    simp at this

/-- C9, amended: title normalization strips surrounding whitespace and then
removes every trailing period (not exactly one): the normalized title is the
stripped title minus its whole maximal run of trailing periods, and never ends
in a period. -/
theorem C9_title_strips_all_trailing_periods (rec : SumRec) :
    ∃ k, pyStrip rec.title = (normalize_record rec).title ++ List.replicate k '.' ∧
      (normalize_record rec).title.getLast? ≠ some '.' := by
  have h : (normalize_record rec).title = pyRstripDot (pyStrip rec.title) := rfl
  rw [h]
  exact pyRstripDot_spec (pyStrip rec.title)

/-- A record whose raw title ends in two periods. -/
def recDots : SumRec :=
  SumRec.mk (strL "111") (strL "Ends with two dots..") (strL "J Biol") []
    (strL "2023 Aug") [strL "Doe J"] []

/-- C9, counterexample: `.strip().rstrip(".")` removes both trailing periods
of a title ending in two periods, not exactly one. -/
theorem C9_counterexample :
    (normalize_record recDots).title = strL "Ends with two dots" ∧
    (normalize_record recDots).title ≠ strL "Ends with two dots." := by
  refine ⟨by decide, by decide⟩

/-- A record whose title carries HTML-significant characters. -/
def recScript : SumRec :=
  SumRec.mk (strL "999") (strL "On <script>alert(1)</script> safety")
    (strL "Journal of Testing") [] (strL "2023 Aug 14") [strL "Doe J"] []

/-- C2: the renderer embeds externally-sourced text verbatim — the raw
`<script>` markup of a title appears in the fragment and no escaped entity
sequence is produced. -/
theorem C2_renderer_emits_raw_markup :
    containsSub (render_fragment (group_by_year [normalize_record recScript]))
      (strL "<script>alert(1)</script>") = true ∧
    containsSub (render_fragment (group_by_year [normalize_record recScript]))
      (strL "&lt;") = false := by
  refine ⟨by decide, by decide⟩

theorem firstSeen_mem {α : Type} [DecidableEq α] {x : α} :
    ∀ {l seen : List α}, x ∈ firstSeen seen l ↔ (x ∈ l ∧ x ∉ seen) := by
  intro l
  induction l with
  | nil => intro seen; simp [firstSeen]
  | cons y ys ih =>
    intro seen
    by_cases hy : y ∈ seen
    · rw [firstSeen, if_pos hy, ih]
      constructor
      · rintro ⟨h1, h2⟩
        exact ⟨List.mem_cons_of_mem _ h1, h2⟩
      · rintro ⟨h1, h2⟩
        rcases List.mem_cons.mp h1 with rfl | h1'
        · exact absurd hy h2
        · exact ⟨h1', h2⟩
    · rw [firstSeen, if_neg hy]
      by_cases hxy : x = y
      · subst hxy
        simp [hy]
      · rw [List.mem_cons, ih]
        constructor
        · rintro (rfl | ⟨h1, h2⟩)
          · exact absurd rfl hxy
          · refine ⟨List.mem_cons_of_mem _ h1, ?_⟩
            intro hc
            exact h2 (List.mem_cons_of_mem _ hc)
        · rintro ⟨h1, h2⟩
          rcases List.mem_cons.mp h1 with rfl | h1'
          · exact absurd rfl hxy
          · refine Or.inr ⟨h1', ?_⟩
            intro hc
            rcases List.mem_cons.mp hc with rfl | hc'
            · exact hxy rfl
            · exact h2 hc'

theorem firstSeen_nodup {α : Type} [DecidableEq α] :
    ∀ (l seen : List α), (firstSeen seen l).Nodup := by
  intro l
  induction l with
  | nil => intro seen; simp [firstSeen]
  | cons y ys ih =>
    intro seen
    by_cases hy : y ∈ seen
    · rw [firstSeen, if_pos hy]
      exact ih seen
    · rw [firstSeen, if_neg hy]
      rw [List.nodup_cons]
      refine ⟨?_, ih (y :: seen)⟩
      intro hc
      have := (firstSeen_mem.mp hc).2
      exact this (List.mem_cons_self _ _)

/-- C1, counterexample: the aggregation stage reorders the identifiers by
numeric value descending; first-seen order `["10", "30"]` is not preserved. -/
theorem C1_counterexample :
    dedupSortPmids [strL "10", strL "30"] = [strL "30", strL "10"] ∧
    dedupSortPmids [strL "10", strL "30"] ≠ [strL "10", strL "30"] := by
  refine ⟨by decide, by decide⟩

/-- C1, amended: the aggregated PMID sequence contains each identifier exactly
once (same membership as the concatenation), ordered by the numeric sort key
descending (`int(x)` for digit strings, `0` otherwise) — not in first-seen
order. -/
theorem C1_dedup_sorted_desc (l : List (List Char)) :
    (dedupSortPmids l).Nodup ∧
    (∀ x, x ∈ dedupSortPmids l ↔ x ∈ l) ∧
    (dedupSortPmids l).Pairwise (fun a b => pmidKey b ≤ pmidKey a) := by
  unfold dedupSortPmids
  have hperm := stableSort_perm
    (fun a b => decide (pmidKey b ≤ pmidKey a)) (firstSeen [] l)
  refine ⟨?_, ?_, ?_⟩
  · exact hperm.nodup_iff.mpr (firstSeen_nodup l [])
  · intro x
    rw [hperm.mem_iff, firstSeen_mem]
    simp
  · have hs := @Pubs.stableSort_sorted (List Char)
      (fun a b => decide (pmidKey b ≤ pmidKey a))
      (fun a b c hab hbc => by
        simp only [decide_eq_true_eq] at hab hbc ⊢
        omega)
      (fun a b => by
        simp only [decide_eq_true_eq]
        omega)
      (firstSeen [] l)
    refine hs.imp ?_
    intro a b hab
    simpa using hab

theorem yearOf_eq_zero {p : List Char}
    (h : ∀ idx, yearMatch (p.drop idx) = false) : yearOf p = 0 := by
  unfold yearOf
  rw [findFirstIdx_none_of h]

theorem noYearMatch_of_bounded {p : List Char}
    (hb : ((List.range (p.length + 1)).all
      (fun idx => !(yearMatch (p.drop idx)))) = true) :
    ∀ idx, yearMatch (p.drop idx) = false := by
  intro idx
  rcases Nat.lt_or_ge idx (p.length + 1) with hlt | hge
  · have := (List.all_eq_true.mp hb) idx (List.mem_range.mpr hlt)
    simpa using this
  · rw [List.drop_eq_nil_of_le (by omega)]
    rfl

theorem mainLoopParts_eq : ∀ by_year : List (Nat × List NormRec),
    mainLoopParts by_year =
      ((by_year.filter (fun kv => kv.1 != 0)).map
        (fun kv => yearSectionParts kv.1 kv.2)).flatten := by
  intro by_year
  induction by_year with
  | nil => rfl
  | cons kv rest ih =>
    rcases kv with ⟨y, recs⟩
    by_cases hy : y = 0
    · subst hy
      simp [mainLoopParts, ih]
    · rw [mainLoopParts, if_neg hy, ih]
      have : ((y, recs).1 != 0) = true := by simpa using hy
      simp [List.filter_cons, this]

/-- Every entry of `group_by_year records` is the bucket of its key. -/
theorem group_by_year_shape {records : List NormRec} {kv : Nat × List NormRec}
    (h : kv ∈ group_by_year records) :
    kv = (kv.1, sortYearGroup (records.filter (fun r => r.year == kv.1))) := by
  unfold group_by_year at h
  rw [(stableSort_perm _ _).mem_iff] at h
  rcases List.mem_map.mp h with ⟨y, _, rfl⟩
  rfl

/-- Membership of the zero bucket in the grouping. -/
theorem group_by_year_zero_mem {records : List NormRec} {r : NormRec}
    (hr : r ∈ records) (hy : r.year = 0) :
    (0, sortYearGroup (records.filter (fun x => x.year == 0))) ∈
      group_by_year records := by
  unfold group_by_year
  rw [(stableSort_perm _ _).mem_iff]
  apply List.mem_map.mpr
  refine ⟨0, ?_, rfl⟩
  rw [firstSeen_mem]
  refine ⟨?_, by simp⟩
  apply List.mem_map.mpr
  exact ⟨r, hr, hy⟩

/-- C5: a normalized record whose publication-date string has no match of the
regex `(19|20)\d{2}` — no parseable year — lands in the year-0 (undated)
bucket, and the rendered fragment is the numbered-year sections (the entries
with key ≠ 0, in grouping order) followed by the undated section — the
undated section is always last, however many numbered-year groups exist. -/
theorem C5_undated_bucket_last (raws : List SumRec) (rec : SumRec)
    (hr : rec ∈ raws)
    (hnoyear : ∀ idx, yearMatch (rec.pubdate.drop idx) = false) :
    (∃ recs0, (0, recs0) ∈ group_by_year (raws.map normalize_record) ∧
      normalize_record rec ∈ recs0) ∧
    normalize_record rec ∈ lookup0 (group_by_year (raws.map normalize_record)) ∧
    render_fragment (group_by_year (raws.map normalize_record)) =
      joinSep (strL "\n")
        ((((group_by_year (raws.map normalize_record)).filter
              (fun kv => kv.1 != 0)).map
            (fun kv => yearSectionParts kv.1 kv.2)).flatten ++
          undatedSectionParts (lookup0 (group_by_year (raws.map normalize_record)))) := by
  have hy0 : (normalize_record rec).year = 0 := yearOf_eq_zero hnoyear
  have hrm : normalize_record rec ∈ raws.map normalize_record :=
    List.mem_map.mpr ⟨rec, hr, rfl⟩
  have hmem0 := group_by_year_zero_mem hrm hy0
  have hrin : normalize_record rec ∈
      sortYearGroup ((raws.map normalize_record).filter (fun x => x.year == 0)) := by
    unfold sortYearGroup
    rw [(stableSort_perm _ _).mem_iff, List.mem_filter]
    exact ⟨hrm, by simp [hy0]⟩
  have hlook : lookup0 (group_by_year (raws.map normalize_record)) =
      sortYearGroup ((raws.map normalize_record).filter (fun x => x.year == 0)) := by
    unfold lookup0
    rcases hfind : (group_by_year (raws.map normalize_record)).find?
        (fun kv => kv.1 == 0) with _ | kv0
    · exfalso
      have hnone : ((group_by_year (raws.map normalize_record)).find?
          (fun kv => kv.1 == 0)).isSome = true := by
        rw [List.find?_isSome]
        exact ⟨_, hmem0, by simp⟩
      rw [hfind] at hnone
      simp at hnone
    · rcases kv0 with ⟨k0, v0⟩
      have hk0 : k0 = 0 := by simpa using List.find?_some hfind
      have hshape := group_by_year_shape (List.mem_of_find?_eq_some hfind)
      have hv0 : v0 = sortYearGroup
          ((raws.map normalize_record).filter (fun r => r.year == k0)) := by
        simpa using hshape
      subst hk0
      rw [hfind]
      exact hv0
  refine ⟨⟨_, hmem0, hrin⟩, hlook ▸ hrin, ?_⟩
  unfold render_fragment
  rw [mainLoopParts_eq]
  have hany : (group_by_year (raws.map normalize_record)).any
      (fun kv => kv.1 == 0) = true := by
    rw [List.any_eq_true]
    exact ⟨_, hmem0, by simp⟩
  rw [if_pos hany]
  have hne : (lookup0 (group_by_year (raws.map normalize_record))).isEmpty =
      false := by
    rw [hlook]
    cases hc : sortYearGroup ((raws.map normalize_record).filter
        (fun x => x.year == 0)) with
    | nil => rw [hc] at hrin; simp at hrin
    | cons a t => simp
  rw [if_neg (by simp [hne])]

/-- A record whose publication date contains four consecutive digits (`1899`)
yet no `(19|20)\d{2}` match — a year the regex cannot parse. -/
def recWinter : SumRec :=
  SumRec.mk (strL "77") (strL "A classic study") (strL "Old Journal") []
    (strL "1899 Winter") [strL "Roe R"] []

theorem C5_witness :
    (recWinter ∈ [recScript, recWinter]) ∧
    ((∃ recs0, (0, recs0) ∈ group_by_year
        ([recScript, recWinter].map normalize_record) ∧
        normalize_record recWinter ∈ recs0) ∧
      normalize_record recWinter ∈ lookup0 (group_by_year
        ([recScript, recWinter].map normalize_record)) ∧
      render_fragment (group_by_year ([recScript, recWinter].map normalize_record)) =
        joinSep (strL "\n")
          ((((group_by_year ([recScript, recWinter].map normalize_record)).filter
                (fun kv => kv.1 != 0)).map
              (fun kv => yearSectionParts kv.1 kv.2)).flatten ++
            undatedSectionParts (lookup0 (group_by_year
              ([recScript, recWinter].map normalize_record))))) :=
  ⟨by decide,
   C5_undated_bucket_last _ _ (by decide)
     (noYearMatch_of_bounded (by decide))⟩

theorem C8_witness :
    (List.replicate 450 (strL "12345")).length = 450 ∧
    (∀ t, t < 3 → ∃ r, (fun _ : Nat => Except.ok (SumResp.mk [] []) :
        Nat → Except (List Char) SumResp) (0 + t) = Except.ok r) ∧
    ((esummary (fun _ => Except.ok (SumResp.mk [] []))
        (List.replicate 450 (strL "12345")) 0).2.2 =
      [NetEvent.fetchSummary ((List.replicate 450 (strL "12345")).take 200),
       NetEvent.sleepCs 34,
       NetEvent.fetchSummary (((List.replicate 450 (strL "12345")).drop 200).take 200),
       NetEvent.sleepCs 34,
       NetEvent.fetchSummary ((List.replicate 450 (strL "12345")).drop 400),
       NetEvent.sleepCs 34] ∧
     ((List.replicate 450 (strL "12345")).take 200).length = 200 ∧
     (((List.replicate 450 (strL "12345")).drop 200).take 200).length = 200 ∧
     ((List.replicate 450 (strL "12345")).drop 400).length = 50 ∧
     (esummary (fun _ => Except.ok (SumResp.mk [] []))
        (List.replicate 450 (strL "12345")) 0).2.1 = 0 + 3 ∧
     ∃ out, (esummary (fun _ => Except.ok (SumResp.mk [] []))
        (List.replicate 450 (strL "12345")) 0).1 = Except.ok out) :=
  ⟨by simp, fun t ht => ⟨SumResp.mk [] [], rfl⟩,
   C8_batching _ _ 0 (by simp) (fun t ht => ⟨SumResp.mk [] [], rfl⟩)⟩

end Pubs

namespace News

open PyStr
open Pubs (stableSort stableSort_perm stableSort_sorted firstSeen pyStrip joinSep)

/-- `TOPIC_KEYWORDS` from `scripts/build_news_json.py`. -/
def TOPIC_KEYWORDS : List (List Char) :=
  [strL "wnt", strL "frizzled", strL "β-catenin", strL "beta-catenin",
   strL "cancer", strL "regeneration", strL "regenerative", strL "glioblastoma",
   strL "signaling", strL "donnelly", strL "endothelial", strL "barrier",
   strL "surrogate", strL "agonist", strL "medulloblastoma", strL "radiation",
   strL "therapeutic", strL "therapy", strL "neurogenesis", strL "parkinson",
   strL "dopaminergic", strL "dopamine", strL "retinopathy", strL "retina",
   strL "retinal", strL "ophthalmology", strL "antibody", strL "stem cell",
   strL "neurons", strL "neural", strL "antlera", strL "eyebio", strL "regor",
   strL "cdk", strL "biotech", strL "spinout", strL "genentech", strL "roche",
   strL "eye disease"]

/-- `AFFILIATIONS` from `scripts/build_news_json.py`. -/
def AFFILIATIONS : List (List Char) :=
  [strL "stephane angers", strL "stéphane angers", strL "stephane-angers",
   strL "angers lab", strL "angers laboratory", strL "angers' lab",
   strL "angers’ lab", strL "donnelly centre", strL "donnelly center",
   strL "temerty", strL "medicine by design", strL "university of toronto",
   strL "u of t", strL "université de toronto", strL "toronto researchers",
   strL "antlera", strL "eyebio", strL "regor", strL "centre donnelly"]

/-- `TRUSTED_HOSTS` from `scripts/build_news_json.py`. -/
def TRUSTED_HOSTS : List (List Char) :=
  [strL "temertymedicine.utoronto.ca", strL "utoronto.ca",
   strL "medicalxpress.com", strL "drugtargetreview.com", strL "prnewswire.com",
   strL "bioprocessintl.com", strL "fiercebiotech.com", strL "biospace.com",
   strL "endpoints.news", strL "metroquebec.com"]

/-- Characters allowed in a URL scheme. -/
def isSchemeChar (c : Char) : Bool :=
  c.isAlphanum || c = '+' || c = '-' || c = '.'

/-- Strip a leading `scheme:` as `urllib.parse.urlsplit` does. -/
def afterScheme (u : List Char) : List Char :=
  match findSub u [':'] with
  | some i =>
    if i != 0 && (u.take i).all isSchemeChar &&
        (match u.head? with | some c => c.isAlpha | none => false) then
      u.drop (i + 1)
    else u
  | none => u

/-- `urlparse(u)` restricted to the two components the script reads:
`(netloc, query)`.  The fragment is split at the first `#`, the query at the
first `?` thereafter. -/
def urlParse (u : List Char) : List Char × List Char :=
  let rest := afterScheme u
  let (netloc, rest2) :=
    if rest.take 2 = strL "//" then
      ((rest.drop 2).takeWhile (fun c => !(c = '/' || c = '?' || c = '#')),
       (rest.drop 2).dropWhile (fun c => !(c = '/' || c = '?' || c = '#')))
    else ([], rest)
  let preFrag := rest2.takeWhile (fun c => !(c = '#'))
  let query := match findSub preFrag ['?'] with
    | some i => preFrag.drop (i + 1)
    | none => []
  (netloc, query)

/-- `host_from(url)`: lowercased netloc with a leading `www.` removed. -/
def host_from (url : List Char) : List Char :=
  let net := (urlParse url).1.map Char.toLower
  if net.take 4 = strL "www." then net.drop 4 else net

/-- Hex digit value. -/
def hexVal (c : Char) : Option Nat :=
  if '0' ≤ c ∧ c ≤ '9' then some (c.toNat - '0'.toNat)
  else if 'a' ≤ c ∧ c ≤ 'f' then some (c.toNat - 'a'.toNat + 10)
  else if 'A' ≤ c ∧ c ≤ 'F' then some (c.toNat - 'A'.toNat + 10)
  else none

/-- `urllib.parse.unquote_plus` at the character level (`+` → space, `%XX` →
the code point; invalid escapes kept literally).  Multi-byte UTF-8 percent
sequences decode to several characters here instead of one; the established
properties do not depend on that difference. -/
def unquotePlus : List Char → List Char
  | [] => []
  | '+' :: t => ' ' :: unquotePlus t
  | '%' :: a :: b :: t =>
    (match hexVal a, hexVal b with
     | some x, some y => Char.ofNat (16 * x + y) :: unquotePlus t
     | _, _ => '%' :: unquotePlus (a :: b :: t))
  | c :: t => c :: unquotePlus t
termination_by l => l.length
decreasing_by
  all_goals simp only [List.length_cons]
  all_goals omega

/-- Split on a separator character (`str.split` with a one-char separator,
keeping empty pieces). -/
def splitOnChar (c : Char) : List Char → List (List Char)
  | [] => [[]]
  | x :: t =>
    if x = c then [] :: splitOnChar c t
    else
      match splitOnChar c t with
      | [] => [[x]]
      | h :: r => (x :: h) :: r

/-- `parse_qs(query).get('url', [])`: the decoded values whose decoded name is
`url`; pairs without `=` and blank values are dropped (`keep_blank_values`
defaults to false). -/
def parseQsUrl (q : List Char) : List (List Char) :=
  (splitOnChar '&' q).filterMap (fun nv =>
    if nv.isEmpty then none
    else match findSub nv ['='] with
      | none => none
      | some i =>
        let value := nv.drop (i + 1)
        if value.isEmpty then none
        else if unquotePlus (nv.take i) = strL "url" then
          some (unquotePlus value)
        else none)

/-- `clean_link(url)`: unwrap Google/Yahoo News redirect links. -/
def clean_link (url : List Char) : List Char :=
  if url.isEmpty then []
  else
    let netloc := (urlParse url).1.map Char.toLower
    if (strL "news.google.com").reverse.isPrefixOf netloc.reverse ||
        (strL "news.yahoo.com").reverse.isPrefixOf netloc.reverse then
      match parseQsUrl (urlParse url).2 with
      | [] => url
      | target0 :: _ => target0
    else url

/-- `includes_topic_keywords(text)`. -/
def includes_topic_keywords (text : List Char) : Bool :=
  TOPIC_KEYWORDS.any (fun k => containsSub (text.map Char.toLower) k)

/-- `has_affiliation(text, host)`. -/
def has_affiliation (text host : List Char) : Bool :=
  if AFFILIATIONS.any (fun tok => containsSub (text.map Char.toLower) tok) then
    true
  else
    let hn := host_from host
    if hn.isEmpty then false else TRUSTED_HOSTS.any (fun h => hn == h)

/-- One parsed feed item (the dict built by `parse_rss`). -/
structure RawItem where
  title : List Char
  link : List Char
  pubDate : List Char
  source : List Char
  description : List Char
  deriving DecidableEq, Inhabited

/-- One entry of the produced `news.json` array. -/
structure OutItem where
  title : List Char
  link : List Char
  pubDate : List Char
  source : List Char
  deriving DecidableEq, Inhabited

/-- `raw_link = (it.get('link','') or '').strip()`. -/
def rawLink (it : RawItem) : List Char := pyStrip it.link

/-- `link = clean_link(raw_link)`. -/
def itemLink (it : RawItem) : List Char := clean_link (rawLink it)

/-- `text = ' '.join([title, description, link or raw_link, source_text])`. -/
def itemText (it : RawItem) : List Char :=
  joinSep (strL " ")
    [it.title, it.description,
     (if (itemLink it).isEmpty then rawLink it else itemLink it), it.source]

/-- `host = host_from(link or raw_link)`. -/
def itemHost (it : RawItem) : List Char :=
  host_from (if (itemLink it).isEmpty then rawLink it else itemLink it)

/-- The two `continue` filters: affiliation and topic keywords. -/
def itemKeep (it : RawItem) : Bool :=
  has_affiliation (itemText it) (itemHost it) &&
    includes_topic_keywords (itemText it)

/-- `key = link or (it.get('title') or '').strip()`. -/
def itemKey (it : RawItem) : List Char :=
  if (itemLink it).isEmpty then pyStrip it.title else itemLink it

/-- The dict appended to `filtered`. -/
def mkOut (pdIso : List Char → List Char) (it : RawItem) : OutItem :=
  OutItem.mk
    (if (pyStrip it.title).isEmpty then strL "(untitled)" else pyStrip it.title)
    (if (itemLink it).isEmpty then rawLink it else itemLink it)
    (pdIso it.pubDate)
    (if !it.source.isEmpty then it.source
     else if !(host_from (itemLink it)).isEmpty then host_from (itemLink it)
     else host_from (rawLink it))

/-- The filter/dedup loop of `main` (lines 159–184).  `pdIso` is the oracle
for the stdlib combination `parse_date(...)` + `isoformat()` (returning `""`
for unparseable dates); `seen` is the dedup set. -/
def newsLoop (pdIso : List Char → List Char) :
    List RawItem → List (List Char) → List OutItem
  | [], _ => []
  | it :: rest, seen =>
    if itemKeep it then
      if (itemKey it).isEmpty || seen.contains (itemKey it) then
        newsLoop pdIso rest seen
      else mkOut pdIso it :: newsLoop pdIso rest (itemKey it :: seen)
    else newsLoop pdIso rest seen

/-- Lines 187–188 of `main`: sort newest first (unparsed dates serialize to
`""`), cap to 40. -/
def newsMain (pdIso : List Char → List Char) (all_items : List RawItem) :
    List OutItem :=
  (stableSort (fun a b => Pubs.strLe b.pubDate a.pubDate)
    (newsLoop pdIso all_items [])).take 40

/-- The deduplication key recomputed from an output entry. -/
def outKey (o : OutItem) : List Char := if o.link.isEmpty then o.title else o.link

end News

namespace News

open PyStr
open Pubs (stableSort stableSort_perm stableSort_sorted pyStrip joinSep strLe)

theorem strLe_total : ∀ s t : List Char, strLe s t = true ∨ strLe t s = true := by
  intro s
  induction s with
  | nil => intro t; left; rfl
  | cons a s ih =>
    intro t
    cases t with
    | nil => right; rfl
    | cons b t =>
      by_cases hab : a = b
      · subst hab
        rcases ih t with h | h
        · left
          simpa [strLe] using h
        · right
          simpa [strLe] using h
      · rcases lt_trichotomy a b with h | h | h
        · left
          simp [strLe, hab, h]
        · exact absurd h hab
        · right
          have hba : ¬ b = a := fun e => hab e.symm
          simp [strLe, hba, h]

theorem strLe_trans : ∀ s t u : List Char,
    strLe s t = true → strLe t u = true → strLe s u = true := by
  intro s
  induction s with
  | nil => intro t u _ _; rfl
  | cons a s ih =>
    intro t u hst htu
    cases t with
    | nil => simp [strLe] at hst
    | cons b t =>
      cases u with
      | nil => simp [strLe] at htu
      | cons c u =>
        by_cases hab : a = b <;> by_cases hbc : b = c
        · subst hab; subst hbc
          rw [strLe] at hst htu ⊢
          rw [if_pos rfl] at hst htu ⊢
          exact ih t u hst htu
        · subst hab
          rw [strLe, if_pos rfl] at hst
          rw [strLe, if_neg hbc] at htu
          rw [strLe, if_neg hbc]
          exact htu
        · subst hbc
          rw [strLe, if_neg hab] at hst
          rw [strLe, if_neg hab]
          exact hst
        · rw [strLe, if_neg hab] at hst
          rw [strLe, if_neg hbc] at htu
          have h1 : a < b := by simpa using hst
          have h2 : b < c := by simpa using htu
          have hac : a < c := h1.trans h2
          rw [strLe, if_neg (by exact fun e => absurd (e ▸ hac) (lt_irrefl c))]
          simpa using hac

theorem strLe_nil_right {t : List Char} (h : strLe t [] = true) : t = [] := by
  cases t with
  | nil => rfl
  | cons a s => simp [strLe] at h

theorem unquotePlus_ne_nil : ∀ l : List Char, l ≠ [] → unquotePlus l ≠ [] := by
  intro l h
  rw [unquotePlus.eq_def]
  rcases l with _ | ⟨c, t⟩
  · exact absurd rfl h
  · split <;> first
      | (split <;> simp_all)
      | simp_all

theorem parseQsUrl_ne_nil {q : List Char} :
    ∀ x ∈ parseQsUrl q, x ≠ [] := by
  intro x hx
  rcases List.mem_filterMap.mp hx with ⟨nv, _, heq⟩
  by_cases h1 : nv.isEmpty
  · simp [h1] at heq
  · rw [if_neg h1] at heq
    rcases hf : findSub nv [Char.ofNat 61] with _ | i
    · rw [hf] at heq
      simp at heq
    · rw [hf] at heq
      dsimp only at heq
      by_cases h2 : (nv.drop (i + 1)).isEmpty
      · simp [h2] at heq
      · rw [if_neg h2] at heq
        by_cases h3 : unquotePlus (nv.take i) = strL "url"
        · rw [if_pos h3] at heq
          have hx2 : x = unquotePlus (nv.drop (i + 1)) := by
            simpa using heq.symm
          rw [hx2]
          apply unquotePlus_ne_nil
          intro hbad
          rw [hbad] at h2
          exact h2 rfl
        · simp [h3] at heq

theorem clean_link_ne_nil {url : List Char} (h : url ≠ []) :
    clean_link url ≠ [] := by
  unfold clean_link
  rw [if_neg (by simpa using h)]
  dsimp only
  split
  · rcases hq : parseQsUrl (urlParse url).2 with _ | ⟨t0, r⟩
    · exact h
    · exact parseQsUrl_ne_nil t0 (hq ▸ List.mem_cons_self t0 r)
  · exact h

theorem clean_link_nil_iff {url : List Char} :
    clean_link url = [] ↔ url = [] := by
  constructor
  · intro h
    by_contra hne
    exact clean_link_ne_nil hne h
  · intro h
    rw [h]
    rfl

end News

namespace News

open PyStr
open Pubs (stableSort stableSort_perm stableSort_sorted pyStrip joinSep strLe)

theorem outKey_mkOut (pdIso : List Char → List Char) (it : RawItem)
    (hk : (itemKey it).isEmpty = false) : outKey (mkOut pdIso it) = itemKey it := by
  unfold outKey mkOut itemKey
  unfold itemKey at hk
  by_cases hl : (itemLink it).isEmpty = true
  · rw [if_pos hl] at hk
    have hraw : (rawLink it).isEmpty = true := by
      by_contra hne
      have hne' : rawLink it ≠ [] := by
        intro hbad
        rw [hbad] at hne
        exact hne rfl
      apply clean_link_ne_nil hne'
      have h0 := List.isEmpty_iff.mp hl
      unfold itemLink at h0
      exact h0
    rw [if_pos hl, if_pos hraw, if_neg (by simp [hk])]
    dsimp only
    rw [if_pos hl]
  · rw [if_neg hl] at hk
    rw [if_neg hl, if_neg hl]
    dsimp only
    rw [if_neg hl]

theorem newsLoop_keys (pdIso : List Char → List Char) :
    ∀ (items : List RawItem) (seen : List (List Char)),
      ((newsLoop pdIso items seen).map outKey).Nodup ∧
      (∀ o ∈ newsLoop pdIso items seen, outKey o ∉ seen) := by
  intro items
  induction items with
  | nil => intro seen; simp [newsLoop]
  | cons it rest ih =>
    intro seen
    rw [newsLoop]
    by_cases hkeep : itemKeep it = true
    · rw [if_pos hkeep]
      by_cases hskip : ((itemKey it).isEmpty || seen.contains (itemKey it)) = true
      · rw [if_pos hskip]
        exact ih seen
      · rw [if_neg hskip]
        rw [Bool.or_eq_true] at hskip
        push_neg at hskip
        have hke : (itemKey it).isEmpty = false := by
          rcases hh : (itemKey it).isEmpty with _ | _
          · rfl
          · exact absurd hh hskip.1
        have hkc : seen.contains (itemKey it) = false := by
          rcases hh : seen.contains (itemKey it) with _ | _
          · rfl
          · exact absurd hh hskip.2
        rcases ih (itemKey it :: seen) with ⟨ihn, ihs⟩
        constructor
        · rw [List.map_cons, List.nodup_cons]
          refine ⟨?_, ihn⟩
          intro hbad
          rcases List.mem_map.mp hbad with ⟨o, ho, heq⟩
          have := ihs o ho
          rw [heq, outKey_mkOut pdIso it hke] at this
          exact this (List.mem_cons_self _ _)
        · intro o ho
          rcases List.mem_cons.mp ho with rfl | ho'
          · rw [outKey_mkOut pdIso it hke]
            intro hbad
            have hc : seen.contains (itemKey it) = true :=
              List.elem_eq_true_of_mem hbad
            rw [hc] at hkc
            exact absurd hkc (by simp)
          · intro hbad
            exact (ihs o ho') (List.mem_cons_of_mem _ hbad)
    · rw [if_neg hkeep]
      exact ih seen

/-- C10: for every run of the news aggregator (any feed contents, any date
oracle), the produced array has at most 40 items; the deduplication key
recomputed from each emitted item (its link, or its title when the link is
empty) appears at most once; the items are ordered by their serialized
pubDate string descending; and every item whose date serialized to the empty
string sorts after all items with a nonempty serialized date. -/
theorem C10_news_json (pdIso : List Char → List Char)
    (all_items : List RawItem) :
    (newsMain pdIso all_items).length ≤ 40 ∧
    ((newsMain pdIso all_items).map outKey).Nodup ∧
    (newsMain pdIso all_items).Pairwise
      (fun a b => strLe b.pubDate a.pubDate = true) ∧
    (newsMain pdIso all_items).Pairwise
      (fun a b => a.pubDate = [] → b.pubDate = []) := by
  have hsorted :
      (stableSort (fun a b : OutItem => strLe b.pubDate a.pubDate)
        (newsLoop pdIso all_items [])).Pairwise
        (fun a b => strLe b.pubDate a.pubDate = true) :=
    stableSort_sorted
      (fun a b c hab hbc => strLe_trans c.pubDate b.pubDate a.pubDate hbc hab)
      (fun a b => strLe_total b.pubDate a.pubDate)
      (newsLoop pdIso all_items [])
  have htake :
      (newsMain pdIso all_items).Sublist
        (stableSort (fun a b : OutItem => strLe b.pubDate a.pubDate)
          (newsLoop pdIso all_items [])) := by
    unfold newsMain
    exact List.take_sublist _ _
  refine ⟨?_, ?_, ?_, ?_⟩
  · unfold newsMain
    rw [List.length_take]
    exact Nat.min_le_left _ _
  · have hperm :
        ((stableSort (fun a b : OutItem => strLe b.pubDate a.pubDate)
          (newsLoop pdIso all_items [])).map outKey).Perm
          ((newsLoop pdIso all_items []).map outKey) :=
      (stableSort_perm _ _).map outKey
    have hnodup := hperm.nodup_iff.mpr (newsLoop_keys pdIso all_items []).1
    exact hnodup.sublist (htake.map outKey)
  · exact hsorted.sublist htake
  · refine List.Pairwise.imp ?_ (hsorted.sublist htake)
    intro a b hab ha
    rw [ha] at hab
    exact strLe_nil_right hab

end News
